import Mathlib

/-!
Verification of the "Contextual Wiki Definitions" Obsidian plugin
(`src/main.js`, hardened variant, which is the authority; `src/unnamed/part_000`
and `part_001` are earlier variants of the same code).

Strings are modelled as `List Char`.  JavaScript's `String.prototype.trim`,
`split('\n')`, `join('\n')`, `toLowerCase`, `includes`, `startsWith`,
`slice`, and the lazy global regex removals used by `_sanitizeOutput` are
embedded as executable Lean functions below.  Host primitives (the document
store, the HTTP transport, `JSON.parse`) are modelled explicitly where the
claims need them.
-/

namespace WikiDef

/-- Whitespace recognised by JavaScript `trim` / `\s` (the ASCII part, which is
all the repository's strings use): space, tab, LF, CR, vertical tab, form feed. -/
def isWS (c : Char) : Bool :=
  c = ' ' || c = '\t' || c = '\n' || c = '\r' || c = Char.ofNat 11 || c = Char.ofNat 12

/-- ASCII model of JavaScript `toLowerCase` (the comparisons in the source only
involve ASCII letters). -/
def lowerChar (c : Char) : Char :=
  if 'A' ≤ c && c ≤ 'Z' then Char.ofNat (c.toNat + 32) else c

/-- Drop trailing whitespace (the right half of JS `trim`), defined structurally. -/
def rdropWS : List Char → List Char
  | [] => []
  | c :: cs =>
    match rdropWS cs with
    | [] => if isWS c then [] else [c]
    | r => c :: r

/-- JavaScript `String.prototype.trim`: drop leading and trailing whitespace. -/
def jsTrim (cs : List Char) : List Char :=
  rdropWS (cs.dropWhile isWS)

/-- JavaScript `text.split('\n')`. -/
def splitLines : List Char → List (List Char)
  | [] => [[]]
  | c :: cs =>
    if c = '\n' then [] :: splitLines cs
    else
      match splitLines cs with
      | [] => [[c]]
      | l :: ls => (c :: l) :: ls

/-- JavaScript `lines.join('\n')`. -/
def joinLines : List (List Char) → List Char
  | [] => []
  | [l] => l
  | l :: ls => l ++ '\n' :: joinLines ls

theorem splitLines_ne_nil (cs : List Char) : splitLines cs ≠ [] := by
  induction cs with
  | nil => simp [splitLines]
  | cons c cs ih =>
    simp only [splitLines]
    split
    · simp
    · match h : splitLines cs with
      | [] => exact absurd h ih
      | l :: ls => simp

theorem splitLines_cons_of_ne (c : Char) (cs : List Char) (h : c ≠ '\n') :
    splitLines (c :: cs) =
      (c :: (splitLines cs).headI) :: (splitLines cs).tail := by
  simp only [splitLines, if_neg h]
  match h2 : splitLines cs with
  | [] => exact absurd h2 (splitLines_ne_nil cs)
  | l :: ls => simp

theorem splitLines_cons_newline (cs : List Char) :
    splitLines ('\n' :: cs) = [] :: splitLines cs := by
  simp [splitLines]

theorem joinLines_splitLines (cs : List Char) : joinLines (splitLines cs) = cs := by
  induction cs with
  | nil => simp [splitLines, joinLines]
  | cons c cs ih =>
    by_cases h : c = '\n'
    · subst h
      rw [splitLines_cons_newline]
      match h2 : splitLines cs with
      | [] => exact absurd h2 (splitLines_ne_nil cs)
      | l :: ls =>
        rw [h2] at ih
        simp [joinLines, ih]
    · rw [splitLines_cons_of_ne c cs h]
      match h2 : splitLines cs with
      | [] => exact absurd h2 (splitLines_ne_nil cs)
      | l :: ls =>
        rw [h2] at ih
        cases ls with
        | nil => simpa [joinLines] using congrArg (c :: ·) ih
        | cons l2 ls2 => simpa [joinLines] using congrArg (c :: ·) ih

theorem splitLines_append_newline (a b : List Char) :
    splitLines (a ++ '\n' :: b) = splitLines a ++ splitLines b := by
  induction a with
  | nil => simp [splitLines]
  | cons c cs ih =>
    by_cases h : c = '\n'
    · subst h
      simp only [List.cons_append, splitLines_cons_newline, ih]
    · rw [List.cons_append, splitLines_cons_of_ne c _ h, splitLines_cons_of_ne c cs h]
      rw [ih]
      match h2 : splitLines cs with
      | [] => exact absurd h2 (splitLines_ne_nil cs)
      | l :: ls => simp

theorem mem_splitLines_no_newline (cs : List Char) :
    ∀ l ∈ splitLines cs, '\n' ∉ l := by
  induction cs with
  | nil => simp [splitLines]
  | cons c cs ih =>
    by_cases h : c = '\n'
    · subst h
      rw [splitLines_cons_newline]
      intro l hl
      rcases List.mem_cons.mp hl with h1 | h1
      · simp [h1]
      · exact ih l h1
    · rw [splitLines_cons_of_ne c cs h]
      intro l hl
      match h2 : splitLines cs with
      | [] => exact absurd h2 (splitLines_ne_nil cs)
      | hd :: tl =>
        rw [h2] at hl
        simp only [List.headI, List.tail] at hl
        rcases List.mem_cons.mp hl with h1 | h1
        · subst h1
          intro hmem
          rcases List.mem_cons.mp hmem with h3 | h3
          · exact h (h3.symm)
          · exact ih hd (by simp [h2]) h3
        · exact ih l (by simp [h2, h1])

theorem splitLines_no_newline (l : List Char) (h : '\n' ∉ l) :
    splitLines l = [l] := by
  induction l with
  | nil => simp [splitLines]
  | cons c cs ih =>
    have hc : c ≠ '\n' := fun hc => h (by simp [hc])
    rw [splitLines_cons_of_ne c cs hc]
    rw [ih (fun hm => h (by simp [hm]))]
    simp

theorem splitLines_prepend_no_newline (a b : List Char) (h : '\n' ∉ a) :
    splitLines (a ++ b) = (a ++ (splitLines b).headI) :: (splitLines b).tail := by
  induction a with
  | nil =>
    simp only [List.nil_append]
    match h2 : splitLines b with
    | [] => exact absurd h2 (splitLines_ne_nil b)
    | l :: ls => simp
  | cons c cs ih =>
    have hc : c ≠ '\n' := fun hc => h (by simp [hc])
    rw [List.cons_append, splitLines_cons_of_ne c _ hc,
        ih (fun hm => h (by simp [hm]))]
    simp

theorem splitLines_eq_singleton_nil (cs : List Char) (h : splitLines cs = [[]]) :
    cs = [] := by
  cases cs with
  | nil => rfl
  | cons c cs =>
    by_cases hc : c = '\n'
    · subst hc
      rw [splitLines_cons_newline] at h
      have := congrArg List.length h
      simp at this
      exact absurd this (splitLines_ne_nil cs)
    · rw [splitLines_cons_of_ne c cs hc] at h
      have := (List.cons_eq_cons.mp h).1
      simp at this

theorem rdropWS_cons_of_nil (c : Char) (cs : List Char) (h : rdropWS cs = []) :
    rdropWS (c :: cs) = if isWS c then [] else [c] := by
  simp only [rdropWS, h]

theorem rdropWS_cons_of_cons (c : Char) (cs : List Char) (r : Char) (rs : List Char)
    (h : rdropWS cs = r :: rs) : rdropWS (c :: cs) = c :: r :: rs := by
  simp only [rdropWS, h]

theorem rdropWS_eq_nil_iff (cs : List Char) :
    rdropWS cs = [] ↔ ∀ c ∈ cs, isWS c = true := by
  induction cs with
  | nil => simp [rdropWS]
  | cons c cs ih =>
    constructor
    · intro hr d hd
      match h : rdropWS cs with
      | [] =>
        rw [rdropWS_cons_of_nil c cs h] at hr
        rcases List.mem_cons.mp hd with h1 | h1
        · subst h1
          by_cases hc : isWS d = true
          · exact hc
          · simp [hc] at hr
        · exact (ih.mp h) d h1
      | r :: rs =>
        rw [rdropWS_cons_of_cons c cs r rs h] at hr
        simp at hr
    · intro hall
      have h : rdropWS cs = [] := ih.mpr (fun d hd => hall d (by simp [hd]))
      rw [rdropWS_cons_of_nil c cs h, if_pos (hall c (by simp))]

theorem rdropWS_idem (cs : List Char) : rdropWS (rdropWS cs) = rdropWS cs := by
  induction cs with
  | nil => simp [rdropWS]
  | cons c cs ih =>
    match h : rdropWS cs with
    | [] =>
      rw [rdropWS_cons_of_nil c cs h]
      by_cases hc : isWS c = true
      · simp [hc, rdropWS]
      · simp [hc, rdropWS]
    | r :: rs =>
      rw [h] at ih
      rw [rdropWS_cons_of_cons c cs r rs h, rdropWS_cons_of_cons c (r :: rs) r rs ih]

theorem dropWhile_rdropWS_comm (cs : List Char) :
    (rdropWS cs).dropWhile isWS = rdropWS (cs.dropWhile isWS) := by
  induction cs with
  | nil => simp [rdropWS]
  | cons c cs ih =>
    by_cases hc : isWS c = true
    · rw [List.dropWhile_cons_of_pos (by simp [hc])]
      rw [← ih]
      cases h : rdropWS cs with
      | nil => rw [rdropWS_cons_of_nil c cs h, if_pos hc]
      | cons r rs =>
        rw [rdropWS_cons_of_cons c cs r rs h]
        simp [List.dropWhile_cons, hc]
    · rw [List.dropWhile_cons_of_neg (by simp [hc])]
      cases h : rdropWS cs with
      | nil =>
        rw [rdropWS_cons_of_nil c cs h, if_neg (by simp [hc])]
        simp [List.dropWhile_cons, hc]
      | cons r rs =>
        rw [rdropWS_cons_of_cons c cs r rs h]
        simp [List.dropWhile_cons, hc]

theorem dropWhileWS_idem (cs : List Char) :
    (cs.dropWhile isWS).dropWhile isWS = cs.dropWhile isWS := by
  induction cs with
  | nil => simp
  | cons c cs ih =>
    by_cases hc : isWS c = true
    · rw [List.dropWhile_cons_of_pos (by simp [hc])]
      exact ih
    · rw [List.dropWhile_cons_of_neg (by simp [hc]),
          List.dropWhile_cons_of_neg (by simp [hc])]

theorem jsTrim_idem (cs : List Char) : jsTrim (jsTrim cs) = jsTrim cs := by
  unfold jsTrim
  rw [dropWhile_rdropWS_comm, dropWhileWS_idem, rdropWS_idem]

theorem rdropWS_append (a b : List Char) :
    rdropWS (a ++ b) = if rdropWS b = [] then rdropWS a else a ++ rdropWS b := by
  induction a with
  | nil =>
    by_cases hb : rdropWS b = [] <;> simp [hb, rdropWS]
  | cons c cs ih =>
    rw [List.cons_append]
    by_cases hb : rdropWS b = []
    · rw [if_pos hb] at ih
      rw [if_pos hb]
      match h : rdropWS cs with
      | [] => rw [rdropWS_cons_of_nil _ _ (ih.trans h), rdropWS_cons_of_nil c cs h]
      | r :: rs =>
        rw [rdropWS_cons_of_cons _ _ r rs (ih.trans h), rdropWS_cons_of_cons c cs r rs h]
    · rw [if_neg hb] at ih
      rw [if_neg hb]
      have hne : cs ++ rdropWS b ≠ [] := by
        intro hx
        exact hb (List.append_eq_nil.mp hx).2
      match h2 : cs ++ rdropWS b with
      | [] => exact absurd h2 hne
      | x :: xs =>
        rw [h2] at ih
        rw [rdropWS_cons_of_cons _ _ x xs ih, ← h2]
        simp

/-! ## Substring search: JS `includes`, `startsWith` and regex scanning.
`ci = true` models a case-insensitive pattern (the pattern is stored in
lowercase and each text character is lowered before comparison). -/

def prefMatch (ci : Bool) : List Char → List Char → Bool
  | [], _ => true
  | _ :: _, [] => false
  | p :: ps, c :: cs => (if ci then lowerChar c == p else c == p) && prefMatch ci ps cs

/-- Index of the first occurrence of `pat` (JS `indexOf` / first regex match). -/
def findSub (ci : Bool) (pat : List Char) : List Char → Option Nat
  | [] => if prefMatch ci pat [] then some 0 else none
  | c :: cs =>
    if prefMatch ci pat (c :: cs) then some 0
    else (findSub ci pat cs).map (· + 1)

/-- JS `String.prototype.includes` (or a case-insensitive regex test). -/
def hasSub (ci : Bool) (pat cs : List Char) : Bool := (findSub ci pat cs).isSome

/-! ## Settings (src/main.js `loadSettings`, lines 573-579) -/

structure Settings where
  licenseKey : List Char
  allowCodeBlocks : Bool
  allowRawHTML : Bool
  maxOutputLength : Nat

/-- The defaults merged over loaded data in `loadSettings`. -/
def defaultSettings : Settings :=
  { licenseKey := []
    allowCodeBlocks := false
    allowRawHTML := false
    maxOutputLength := 60000 }

/-! ## `_sanitizeOutput` (src/main.js lines 589-621) -/

def fenceTicks : List Char := ("```").toList
def scriptOpen : List Char := ("<script").toList
def scriptClose : List Char := ("</script>").toList
def iframeOpen : List Char := ("<iframe").toList
def iframeClose : List Char := ("</iframe>").toList
def objectOpen : List Char := ("<object").toList
def objectClose : List Char := ("</object>").toList
def embedOpen : List Char := ("<embed").toList
def gtClose : List Char := (">").toList
def styleOpen : List Char := ("<style").toList
def styleClose : List Char := ("</style>").toList

def truncationNotice : List Char := ("\n\n*(Output truncated for safety)*").toList

/-- One pass of JS `text.replace(/open[\s\S]*?close/g, '')`: repeatedly find
the first occurrence of the opening pattern, then the earliest occurrence of
the closing pattern after it (lazy match), delete through the end of the close
and continue scanning after it.  When either pattern is missing, the remaining
text has no further match and is kept unchanged.  The fuel only makes the
recursion structural: every removal consumes at least one character, so
`length + 1` steps always suffice for the nonempty patterns used below. -/
def stripSpansGo (ci : Bool) (opat cpat : List Char) : Nat → List Char → List Char
  | 0, cs => cs
  | fuel + 1, cs =>
    match findSub ci opat cs with
    | none => cs
    | some i =>
      let rest := cs.drop (i + opat.length)
      match findSub ci cpat rest with
      | none => cs
      | some j => cs.take i ++ stripSpansGo ci opat cpat fuel (rest.drop (j + cpat.length))

def stripSpans (ci : Bool) (opat cpat cs : List Char) : List Char :=
  stripSpansGo ci opat cpat (cs.length + 1) cs

/-- `this.settings.maxOutputLength || 60000` (JS `0` is falsy). -/
def effectiveMaxLen (s : Settings) : Nat :=
  if s.maxOutputLength = 0 then 60000 else s.maxOutputLength

/-- The stripping phase of `_sanitizeOutput`: fenced code blocks (case
sensitive) unless allowed, then script/iframe/object/embed/style regions
(case insensitive) unless raw HTML is allowed, in source order. -/
def stripDangerous (s : Settings) (text : List Char) : List Char :=
  let t1 := if s.allowCodeBlocks then text else stripSpans false fenceTicks fenceTicks text
  if s.allowRawHTML then t1
  else
    let a := stripSpans true scriptOpen scriptClose t1
    let b := stripSpans true iframeOpen iframeClose a
    let c := stripSpans true objectOpen objectClose b
    let d := stripSpans true embedOpen gtClose c
    stripSpans true styleOpen styleClose d

/-- `_sanitizeOutput` (src/main.js lines 589-621): strip, then cap the length,
appending the fixed truncation notice when the cap was exceeded. -/
def sanitizeOutput (s : Settings) (text : List Char) : List Char :=
  if text = [] then text
  else
    let t := stripDangerous s text
    if t.length > effectiveMaxLen s then t.take (effectiveMaxLen s) ++ truncationNotice
    else t

/-! ## `_ensureSourceContextFromLine` (src/main.js lines 329-348) -/

def sourceContextHeaderLC : List Char := ("## source context (from the note)").toList
def sourceContextHeaderRaw : List Char := ("## Source Context (From the Note)").toList

/-- `l.trim().toLowerCase() === '## source context (from the note)'` (the
literal in the source is already lowercase, so lowering it is the identity). -/
def isHeaderLine (l : List Char) : Bool := (jsTrim l).map lowerChar == sourceContextHeaderLC

/-- The regex test `/^-\s*From\s*:/i.test(l.trim())`. -/
def isFromLine (l : List Char) : Bool :=
  match jsTrim l with
  | '-' :: rest =>
    match (rest.dropWhile isWS).map lowerChar with
    | 'f' :: 'r' :: 'o' :: 'm' :: r2 =>
      match r2.dropWhile isWS with
      | ':' :: _ => true
      | _ => false
    | _ => false
  | _ => false

/-- `lines.findIndex(...)` specialised to the header test. -/
def findHeaderIdx : List (List Char) → Option Nat
  | [] => none
  | l :: ls => if isHeaderLine l then some 0 else (findHeaderIdx ls).map (· + 1)

def fromLineFor (originLink : List Char) : List Char := ("- From: ").toList ++ originLink

/-- `_ensureSourceContextFromLine(text, originLink)`: if the Source Context
header is absent, append a minimal section after the trimmed text; otherwise
insert a `- From:` line right after the header unless one of the next three
lines already is one. -/
def ensureSourceContextFromLine (text originLink : List Char) : List Char :=
  if text = [] then text
  else
    let lines := splitLines text
    match findHeaderIdx lines with
    | none =>
      jsTrim text ++ ('\n' :: '\n' :: sourceContextHeaderRaw) ++ '\n' :: fromLineFor originLink ++ ['\n']
    | some i =>
      if ((lines.drop (i + 1)).take 3).any isFromLine then joinLines lines
      else joinLines (lines.take (i + 1) ++ fromLineFor originLink :: lines.drop (i + 1))

/-! ## JSON values and a model of the host primitive `JSON.parse`.
The parser covers the JSON fragment the plugin's wire format uses (strings
with simple escapes, objects, arrays, booleans, null, integer numbers);
fractions and `\u` escapes are outside every claim's inputs. -/

inductive Json where
  | null
  | bool (b : Bool)
  | num (n : Int)
  | str (s : List Char)
  | arr (elems : List Json)
  | obj (fields : List (List Char × Json))

/-- JavaScript truthiness of a JSON value. -/
def jsTruthy : Json → Bool
  | .null => false
  | .bool b => b
  | .num n => n != 0
  | .str s => !s.isEmpty
  | .arr _ => true
  | .obj _ => true

/-- Property access `j.k`: a field of an object, `undefined` (none) otherwise. -/
def getField : Json → List Char → Option Json
  | .obj fs, k => (fs.find? (fun p => p.1 == k)).map (·.2)
  | _, _ => none

def jsonWSChar (c : Char) : Bool := c = ' ' || c = '\t' || c = '\n' || c = '\r'

def skipJsonWS (cs : List Char) : List Char := cs.dropWhile jsonWSChar

/-- Parse the remainder of a JSON string literal (after the opening quote). -/
def parseJsonStr : Nat → List Char → Option (List Char × List Char)
  | 0, _ => none
  | _ + 1, [] => none
  | fuel + 1, c :: cs =>
    if c = '"' then some ([], cs)
    else if c = '\\' then
      match cs with
      | [] => none
      | e :: cs2 =>
        let dec : Option Char :=
          if e = '"' then some '"'
          else if e = '\\' then some '\\'
          else if e = '/' then some '/'
          else if e = 'n' then some '\n'
          else if e = 't' then some '\t'
          else if e = 'r' then some '\r'
          else if e = 'b' then some (Char.ofNat 8)
          else if e = 'f' then some (Char.ofNat 12)
          else none
        match dec with
        | none => none
        | some d => (parseJsonStr fuel cs2).map (fun p => (d :: p.1, p.2))
    else (parseJsonStr fuel cs).map (fun p => (c :: p.1, p.2))

def isDigit (c : Char) : Bool := '0' ≤ c && c ≤ '9'

def digitsToNat (ds : List Char) : Nat :=
  ds.foldl (fun a c => a * 10 + (c.toNat - 48)) 0

mutual

def parseJsonVal : Nat → List Char → Option (Json × List Char)
  | 0, _ => none
  | fuel + 1, cs =>
    match skipJsonWS cs with
    | [] => none
    | c :: rest =>
      if c = '"' then (parseJsonStr (rest.length + 1) rest).map (fun p => (.str p.1, p.2))
      else if c = '{' then parseJsonObj fuel rest
      else if c = '[' then parseJsonArr fuel rest
      else if c = 't' then
        match rest with
        | 'r' :: 'u' :: 'e' :: r => some (.bool true, r)
        | _ => none
      else if c = 'f' then
        match rest with
        | 'a' :: 'l' :: 's' :: 'e' :: r => some (.bool false, r)
        | _ => none
      else if c = 'n' then
        match rest with
        | 'u' :: 'l' :: 'l' :: r => some (.null, r)
        | _ => none
      else if c = '-' then
        let p := rest.span isDigit
        if p.1 = [] then none else some (.num (-(digitsToNat p.1 : Int)), p.2)
      else if isDigit c then
        let p := rest.span isDigit
        some (.num (digitsToNat (c :: p.1) : Int), p.2)
      else none

/-- Elements of an array, after the opening bracket. -/
def parseJsonArr : Nat → List Char → Option (Json × List Char)
  | 0, _ => none
  | fuel + 1, cs =>
    match skipJsonWS cs with
    | ']' :: r => some (.arr [], r)
    | cs2 =>
      match parseJsonVal fuel cs2 with
      | none => none
      | some (v, r) =>
        match skipJsonWS r with
        | ',' :: r2 =>
          match parseJsonArr fuel r2 with
          | some (.arr vs, rr) => some (.arr (v :: vs), rr)
          | _ => none
        | ']' :: r2 => some (.arr [v], r2)
        | _ => none

/-- Fields of an object, after the opening brace. -/
def parseJsonObj : Nat → List Char → Option (Json × List Char)
  | 0, _ => none
  | fuel + 1, cs =>
    match skipJsonWS cs with
    | '}' :: r => some (.obj [], r)
    | '"' :: r =>
      match parseJsonStr (r.length + 1) r with
      | none => none
      | some (k, r2) =>
        match skipJsonWS r2 with
        | ':' :: r3 =>
          match parseJsonVal fuel r3 with
          | none => none
          | some (v, r4) =>
            match skipJsonWS r4 with
            | ',' :: r5 =>
              match parseJsonObj fuel r5 with
              | some (.obj fs, rr) => some (.obj ((k, v) :: fs), rr)
              | _ => none
            | '}' :: r5 => some (.obj [(k, v)], r5)
            | _ => none
        | _ => none
    | _ => none

end

/-- `JSON.parse`: a whole-text parse, rejecting trailing garbage. -/
def parseJson (cs : List Char) : Option Json :=
  match parseJsonVal (cs.length + 1) cs with
  | some (v, r) => if skipJsonWS r = [] then some v else none
  | none => none

/-! ## `queryCopilot` (src/main.js lines 457-571).
The HTTP transport is a host primitive: each of the three attempts is
modelled by an oracle `Option WireResponse`, where `none` is a thrown
transport error (timeout/abort) and `some` carries the status flag,
content type and body the code inspects. -/

structure WireResponse where
  ok : Bool
  contentType : List Char
  body : List Char

/-- `data && data.choices && data.choices[0] && data.choices[0].message`
followed by `msg && msg.content`, yielding the content string when present
and truthy.  A truthy non-string content would make `.trim()` throw into the
enclosing catch, which observably also continues with the next strategy, so
it is modelled as `none` as well. -/
def jsonMessageContent (j : Json) : Option (List Char) :=
  match getField j (("choices").toList) with
  | some (.arr (c0 :: _)) =>
    if jsTruthy c0 then
      match getField c0 (("message").toList) with
      | some m =>
        if jsTruthy m then
          match getField m (("content").toList) with
          | some (.str s) => if s.isEmpty then none else some s
          | _ => none
        else none
      | none => none
    else none
  | _ => none

/-- Text fragment contributed by one SSE event:
`choice = evt.choices && evt.choices[0]`, `delta = choice && (choice.delta ||
choice.message)`, `chunk = delta && (delta.content || '')`. -/
def sseChunk (evt : Json) : List Char :=
  match getField evt (("choices").toList) with
  | some (.arr (c0 :: _)) =>
    if jsTruthy c0 then
      let dOpt : Option Json :=
        match getField c0 (("delta").toList) with
        | some dv => if jsTruthy dv then some dv else getField c0 (("message").toList)
        | none => getField c0 (("message").toList)
      match dOpt with
      | some d =>
        if jsTruthy d then
          match getField d (("content").toList) with
          | some (.str s) => s
          | _ => []
        else []
      | none => []
    else []
  | _ => []

/-- The `data:`-line extraction loop shared by all strategies. -/
def sseExtract (text : List Char) : List Char :=
  (splitLines text).foldl
    (fun out rawLine =>
      let line := jsTrim rawLine
      if prefMatch false (("data:").toList) line then
        let payload := jsTrim (line.drop 5)
        if payload = [] || payload = ("[DONE]").toList then out
        else
          match parseJson payload with
          | none => out
          | some evt => out ++ sseChunk evt
      else out)
    []

/-- Attempt 1 (non-streaming JSON from the flash model): on a 2xx response
parse JSON and take `choices[0].message.content`; when the body is not JSON
but the content type or leading bytes indicate an event stream, extract the
`data:` lines instead.  A non-2xx or empty body yields nothing. -/
def attempt1 (resp1 : WireResponse) : Option (List Char) :=
  if resp1.ok then
    if resp1.body = [] then none
    else
      match parseJson resp1.body with
      | some data1 =>
        match jsonMessageContent data1 with
        | some content => some (jsTrim content)
        | none => none
      | none =>
        if hasSub false (("text/event-stream").toList) (resp1.contentType.map lowerChar)
            || prefMatch false (("data:").toList) resp1.body then
          if jsTrim (sseExtract resp1.body) = [] then none
          else some (jsTrim (sseExtract resp1.body))
        else none
  else none

/-- Attempt 2 (explicit SSE stream): a thrown transport error is caught and
falls through; otherwise the `data:` lines of the body are extracted with no
status check. -/
def attempt2 (r2 : Option WireResponse) : Option (List Char) :=
  match r2 with
  | none => none
  | some resp2 =>
    if jsTrim (sseExtract resp2.body) = [] then none
    else some (jsTrim (sseExtract resp2.body))

/-- Attempt 3 (non-streaming JSON from the secondary model). -/
def attempt3 (r3 : Option WireResponse) : Option (List Char) :=
  match r3 with
  | none => none
  | some resp3 =>
    match parseJson resp3.body with
    | some data3 =>
      match jsonMessageContent data3 with
      | some content => some (jsTrim content)
      | none => none
    | none => none

/-- `queryCopilot`: missing key short-circuits; a thrown transport error on
attempt 1 escapes to the outer catch (null); attempts 2 and 3 catch their own
errors and fall through; the first attempt yielding usable text wins. -/
def queryCopilot (licenseKey : List Char) (r1 r2 r3 : Option WireResponse) :
    Option (List Char) :=
  if licenseKey = [] then none
  else
    match r1 with
    | none => none
    | some resp1 =>
      match attempt1 resp1 with
      | some t => some t
      | none =>
        match attempt2 r2 with
        | some t => some t
        | none => attempt3 r3

/-! ## Plugin session state and the file-open handler (src/main.js lines 52-169).

The plugin runs on one logical thread; the deferred `setTimeout` body and the
scheduled retry are executed here to completion in program order, so a
`HandlerResult` describes the system after the handler *and* its retry
complete.  The document store, the origin link-text computation and the
network are host collaborators, modelled as oracle fields of the event:
`Except Unit _` for fallible reads and a `Bool` per write (`false` = the
`vault.modify` call threw), `Option (List Char)` for each `queryCopilot`
outcome.  `netCalls` counts `queryCopilot` invocations. -/

structure TFile where
  path : String
  basename : String
  ext : String
  size : Nat

/-- `_attemptCounts` is a `Map` read only through `get(key) || 0` and written
through `set`/`delete`, so it is modelled as a total function where a deleted
key holds `0`. -/
structure PluginState where
  previousFile : Option TFile
  recentlyProcessed : List String
  attemptCounts : String → Nat
  inFlight : List String

structure OpenEvent where
  file : Option TFile
  readTarget : Except Unit (List Char)
  readOrigin : Except Unit (List Char)
  readOriginRetry : Except Unit (List Char)
  q1 : Option (List Char)
  q2 : Option (List Char)
  writeOk : Bool
  writeRetryOk : Bool
  fallbackWriteOk : Bool
  originLink : List Char

structure HandlerResult where
  state : PluginState
  netCalls : Nat
  writes : List (String × List Char)

def setCount (f : String → Nat) (p : String) (n : Nat) : String → Nat :=
  fun q => if q = p then n else f q

/-- `this._inFlightGenerations.delete(file.path)`. -/
def deleteInFlight (st : PluginState) (p : String) : PluginState :=
  { st with inFlight := st.inFlight.erase p }

/-- `this._attemptCounts.delete(key)` (a deleted key reads as `0`). -/
def deleteAttempts (st : PluginState) (p : String) : PluginState :=
  { st with attemptCounts := setCount st.attemptCounts p 0 }

def completionMarker : List Char := ("## Term - The term being defined:").toList

/-- `_truncateContext` (src/main.js lines 622-626). -/
def truncateContext (text : List Char) : List Char :=
  if text.length > 20000 then text.take 20000 else text

/-- `_buildLocalTemplate` (src/main.js lines 350-371). -/
def buildLocalTemplate (term originLink context : List Char) : List Char :=
  ("## Term - The term being defined: [[").toList ++ term ++
  ("]]\n## One\u2011Sentence Definition\n- <pending>\n## Full Definition (Context\u2011Aware)\n- <pending>\n## Real\u2011World Applications\n- <pending>\n## Related Concepts (Semantic Neighbors)\n- <pending>\n## Illustration (Analogy or Micro\u2011Example)\n- <pending>\n## Boundaries (What It\u2019s Not)\n- <pending>\n## Source Context (From the Note)\n- From: ").toList ++
  originLink ++
  ("\n> Quote or paraphrase the 1\u20133 most relevant lines from the originating note that justify this definition.\n\nOriginating note context:\n").toList ++
  context

/-- The generated document as persisted by every success path:
`definition = this._sanitizeOutput(definition)` followed by
`definition = this._ensureSourceContextFromLine(definition, originLink)`. -/
def generatedDoc (s : Settings) (originLink d : List Char) : List Char :=
  ensureSourceContextFromLine (sanitizeOutput s d) originLink

/-- The `file-open` handler registered in `onload`, including the deferred
body and the scheduled retry, run to completion. -/
def onFileOpen (s : Settings) (st : PluginState) (ev : OpenEvent) : HandlerResult :=
  let st1 :=
    match ev.file with
    | some f => if f.ext = "md" then { st with previousFile := some f } else st
    | none => st
  match ev.file, st.previousFile with
  | none, _ => ⟨st1, 0, []⟩
  | some _, none => ⟨st1, 0, []⟩
  | some f, some _ =>
    if f.ext = "md" then
      if st1.inFlight.contains f.path then ⟨st1, 0, []⟩
      else
        let stF := { st1 with inFlight := f.path :: st1.inFlight }
        match ev.readTarget with
        | .error _ => ⟨deleteInFlight stF f.path, 0, []⟩
        | .ok raw =>
          let content := jsTrim raw
          let looksEmpty := content.isEmpty || content.length < 10
          let templaterError := hasSub true (("templater").toList) content
            && (hasSub true (("error").toList) content || hasSub true (("abort").toList) content)
          let alreadyPopulated := hasSub false completionMarker content
          if alreadyPopulated then ⟨deleteInFlight stF f.path, 0, []⟩
          else if !(f.size == 0) && !looksEmpty && !templaterError then
            ⟨deleteInFlight stF f.path, 0, []⟩
          else if stF.recentlyProcessed.contains f.path then
            ⟨deleteInFlight stF f.path, 0, []⟩
          else
            let stM := { stF with recentlyProcessed := f.path :: stF.recentlyProcessed }
            match ev.readOrigin with
            | .error _ => ⟨deleteInFlight stM f.path, 0, []⟩
            | .ok ctx =>
              match ev.q1 with
              | some d =>
                let doc := generatedDoc s ev.originLink d
                if ev.writeOk then
                  ⟨deleteInFlight (deleteAttempts stM f.path) f.path, 1, [(f.path, doc)]⟩
                else
                  ⟨deleteInFlight stM f.path, 1, []⟩
              | none =>
                let count := stM.attemptCounts f.path + 1
                let stC := { stM with attemptCounts := setCount stM.attemptCounts f.path count }
                if count ≤ 1 then
                  match ev.readOriginRetry with
                  | .error _ =>
                    ⟨deleteInFlight (deleteAttempts stC f.path) f.path, 1, []⟩
                  | .ok _ =>
                    match ev.q2 with
                    | some d2 =>
                      let doc2 := generatedDoc s ev.originLink d2
                      if ev.writeRetryOk then
                        ⟨deleteInFlight (deleteAttempts stC f.path) f.path, 2, [(f.path, doc2)]⟩
                      else
                        ⟨deleteInFlight (deleteAttempts stC f.path) f.path, 2, []⟩
                    | none =>
                      ⟨deleteInFlight (deleteAttempts stC f.path) f.path, 2, []⟩
                else
                  let fb := buildLocalTemplate f.basename.toList ev.originLink (truncateContext ctx)
                  if ev.fallbackWriteOk then
                    ⟨deleteInFlight (deleteAttempts stC f.path) f.path, 1, [(f.path, fb)]⟩
                  else
                    ⟨deleteInFlight (deleteAttempts stC f.path) f.path, 1, []⟩
    else ⟨st1, 0, []⟩

/-- `regenerateForCurrentNote` (src/main.js lines 278-316): the manual
command.  It never inspects the target's content (no completion-marker
check), reads the origin context with a swallowed catch, always issues one
`queryCopilot` call, and writes the definition or the local fallback. -/
def regenerateForCurrentNote (s : Settings) (st : PluginState) (target : Option TFile)
    (readCtx : Except Unit (List Char)) (q : Option (List Char)) (originLink : List Char)
    (writeOk fallbackOk : Bool) : HandlerResult :=
  match target with
  | none => ⟨st, 0, []⟩
  | some t =>
    if t.ext = "md" then
      let ctx := match readCtx with | .ok c => c | .error _ => []
      match q with
      | some d =>
        let doc := generatedDoc s originLink d
        if writeOk then ⟨st, 1, [(t.path, doc)]⟩ else ⟨st, 1, []⟩
      | none =>
        let fb := buildLocalTemplate t.basename.toList originLink (truncateContext ctx)
        if fallbackOk then ⟨st, 1, [(t.path, fb)]⟩ else ⟨st, 1, []⟩
    else ⟨st, 0, []⟩

/-! ## Lemmas about substring search and trimming.
A pattern whose first and last characters are not whitespace (such as the
completion marker) still occurs in the trimmed text whenever it occurs in the
raw text. -/

theorem hasSub_cons (ci : Bool) (pat : List Char) (c : Char) (cs : List Char) :
    hasSub ci pat (c :: cs) = (prefMatch ci pat (c :: cs) || hasSub ci pat cs) := by
  by_cases h : prefMatch ci pat (c :: cs) = true
  · simp [hasSub, findSub, h]
  · simp only [Bool.not_eq_true] at h
    simp only [hasSub, findSub, h]
    cases findSub ci pat cs <;> simp

theorem hasSub_of_prefMatch (ci : Bool) (pat v : List Char)
    (h : prefMatch ci pat v = true) : hasSub ci pat v = true := by
  cases v <;> simp [hasSub, findSub, h]

theorem prefMatch_all_ws (ps : List Char) :
    ∀ cs : List Char, (∀ a ∈ cs, isWS a = true) → prefMatch false ps cs = true →
      ∀ d ∈ ps, isWS d = true := by
  induction ps with
  | nil => simp
  | cons p ps ih =>
    intro cs hws h
    cases cs with
    | nil => simp [prefMatch] at h
    | cons c cs =>
      simp only [prefMatch, if_neg (by simp : ¬(false = true)), Bool.and_eq_true,
        beq_iff_eq] at h
      obtain ⟨h1, h2⟩ := h
      intro d hd
      rcases List.mem_cons.mp hd with rfl | hd
      · rw [← h1]
        exact hws c (by simp)
      · exact ih cs (fun a ha => hws a (by simp [ha])) h2 d hd

theorem prefMatch_rdropWS (pat : List Char) :
    ∀ u : List Char, (pat.getLast?.all fun d => !isWS d) = true →
      prefMatch false pat u = true → prefMatch false pat (rdropWS u) = true := by
  induction pat with
  | nil => intro u _ _; simp [prefMatch]
  | cons p ps ih =>
    intro u hlast h
    cases u with
    | nil => simp [prefMatch] at h
    | cons c cs =>
      simp only [prefMatch, if_neg (by simp : ¬(false = true)), Bool.and_eq_true,
        beq_iff_eq] at h
      obtain ⟨h1, h2⟩ := h
      cases hr : rdropWS cs with
      | nil =>
        have hws : ∀ a ∈ cs, isWS a = true := (rdropWS_eq_nil_iff cs).mp hr
        cases ps with
        | nil =>
          have hp : isWS p = false := by
            simpa [Option.all] using hlast
          rw [rdropWS_cons_of_nil c cs hr, if_neg (by rw [h1]; simp [hp])]
          simp [prefMatch, h1]
        | cons p2 ps2 =>
          exfalso
          have hall := prefMatch_all_ws (p2 :: ps2) cs hws h2
          have hx : ∃ d, (p2 :: ps2).getLast? = some d := by
            cases hgl : (p2 :: ps2).getLast? with
            | none => simp at hgl
            | some d => exact ⟨d, rfl⟩
          obtain ⟨d, hd⟩ := hx
          have hmem : d ∈ p2 :: ps2 := by
            obtain ⟨hne, hdg⟩ := @List.mem_getLast?_eq_getLast Char (p2 :: ps2) d
              (by rw [Option.mem_def, hd])
            rw [hdg]
            exact List.getLast_mem hne
          have hwsd := hall d hmem
          have : (!isWS d) = true := by
            have := hlast
            rw [List.getLast?_cons_cons, hd] at this
            simpa [Option.all] using this
          simp [hwsd] at this
      | cons r rs =>
        rw [rdropWS_cons_of_cons c cs r rs hr]
        simp only [prefMatch, if_neg (by simp : ¬(false = true)), Bool.and_eq_true,
          beq_iff_eq]
        refine ⟨h1, ?_⟩
        have hlast' : (ps.getLast?.all fun d => !isWS d) = true := by
          cases ps with
          | nil => simp [Option.all]
          | cons a b =>
            rw [List.getLast?_cons_cons] at hlast
            exact hlast
        have := ih cs hlast' h2
        rw [hr] at this
        exact this

theorem hasSub_rdropWS (pat : List Char)
    (hlast : (pat.getLast?.all fun d => !isWS d) = true) :
    ∀ u : List Char, hasSub false pat u = true → hasSub false pat (rdropWS u) = true := by
  intro u
  induction u with
  | nil => intro h; simpa [rdropWS] using h
  | cons c cs ih =>
    intro h
    rw [hasSub_cons] at h
    rcases Bool.or_eq_true_iff.mp h with hpm | hs
    · exact hasSub_of_prefMatch _ _ _ (prefMatch_rdropWS pat (c :: cs) hlast hpm)
    · have hrec := ih hs
      cases hr : rdropWS cs with
      | nil =>
        rw [hr] at hrec
        cases pat with
        | nil =>
          apply hasSub_of_prefMatch
          simp [prefMatch]
        | cons p ps => simp [hasSub, findSub, prefMatch] at hrec
      | cons r rs =>
        rw [hr] at hrec
        rw [rdropWS_cons_of_cons c cs r rs hr, hasSub_cons, hrec]
        simp

theorem hasSub_dropWhileWS (pat : List Char)
    (hhead : (pat.head?.all fun d => !isWS d) = true) :
    ∀ u : List Char, hasSub false pat u = true →
      hasSub false pat (u.dropWhile isWS) = true := by
  intro u
  induction u with
  | nil => intro h; simpa using h
  | cons c cs ih =>
    intro h
    by_cases hc : isWS c = true
    · rw [List.dropWhile_cons_of_pos (by simp [hc])]
      apply ih
      rw [hasSub_cons] at h
      rcases Bool.or_eq_true_iff.mp h with hpm | hs
      · cases pat with
        | nil => exact hasSub_of_prefMatch _ _ _ (by simp [prefMatch])
        | cons p ps =>
          exfalso
          simp only [prefMatch, if_neg (by simp : ¬(false = true)), Bool.and_eq_true,
            beq_iff_eq] at hpm
          have hp : isWS p = false := by simpa [Option.all] using hhead
          rw [← hpm.1] at hp
          simp [hc] at hp
      · exact hs
    · rw [List.dropWhile_cons_of_neg (by simp [hc])]
      exact h

theorem hasSub_jsTrim (pat : List Char)
    (hhead : (pat.head?.all fun d => !isWS d) = true)
    (hlast : (pat.getLast?.all fun d => !isWS d) = true)
    (cs : List Char) (h : hasSub false pat cs = true) :
    hasSub false pat (jsTrim cs) = true :=
  hasSub_rdropWS pat hlast _ (hasSub_dropWhileWS pat hhead cs h)

/-! ## Shared concrete fixtures for witnesses -/

def demoFile : TFile := { path := "Term.md", basename := "Term", ext := "md", size := 0 }

def demoOrigin : TFile := { path := "Origin.md", basename := "Origin", ext := "md", size := 120 }

def demoState : PluginState :=
  { previousFile := some demoOrigin
    recentlyProcessed := []
    attemptCounts := fun _ => 0
    inFlight := [] }

def demoEvent (q1 q2 : Option (List Char)) : OpenEvent :=
  { file := some demoFile
    readTarget := .ok []
    readOrigin := .ok (("origin context line").toList)
    readOriginRetry := .ok (("origin context line").toList)
    q1 := q1
    q2 := q2
    writeOk := true
    writeRetryOk := true
    fallbackWriteOk := true
    originLink := ("[[Origin]]").toList }

/-! ## Claims about the file-open handler -/

/-- Claim C1: every file-open event that adds the opened note's path to the
in-flight set releases it on every exit path of the deferred body and its
scheduled retry — skip branches, success, terminal failure, fallback and
caught exceptions alike — so once the handler and retry complete, the path
is absent from the in-flight set regardless of outcome. -/
theorem c1_inFlight_always_released (s : Settings) (st : PluginState) (ev : OpenEvent)
    (f og : TFile) (hf : ev.file = some f) (he : f.ext = "md")
    (hp : st.previousFile = some og)
    (hin : st.inFlight.contains f.path = false) :
    (onFileOpen s st ev).state.inFlight.contains f.path = false := by
  unfold onFileOpen
  simp only [hf, hp, he, if_true]
  simp only [hin, Bool.false_eq_true, if_false]
  repeat' split
  all_goals simp_all [deleteInFlight, deleteAttempts, List.erase_cons_head]

/-- Witness for C1 at a concrete state and event (a failing first attempt and
failing retry). -/
theorem c1_witness :
    (onFileOpen defaultSettings demoState (demoEvent none none)).state.inFlight.contains
      (demoFile.path) = false :=
  c1_inFlight_always_released defaultSettings demoState (demoEvent none none)
    demoFile demoOrigin rfl rfl rfl rfl

/-- Claim C9: the previous-note reference is overwritten exactly on navigation
to a markdown note: a file-open carrying an existing `md` file sets it to that
file, and a file-open carrying `null` or a non-markdown file leaves it
unchanged (no later branch of the handler touches it). -/
theorem c9_previousFile_update (s : Settings) (st : PluginState) (ev : OpenEvent) :
    (onFileOpen s st ev).state.previousFile =
      (match ev.file with
       | some f => if f.ext = "md" then some f else st.previousFile
       | none => st.previousFile) := by
  unfold onFileOpen
  cases hf : ev.file with
  | none =>
    cases hp : st.previousFile <;> simp
  | some f =>
    by_cases he : f.ext = "md"
    · cases hp : st.previousFile with
      | none => simp [he]
      | some og =>
        simp only [he, if_true]
        repeat' split
        all_goals simp_all [deleteInFlight, deleteAttempts]
    · cases hp : st.previousFile <;> simp [he, hp]

/-- Claim C8: a markdown note whose content contains the completion marker
`## Term - The term being defined:` is never regenerated by the file-open
handler — no `queryCopilot` call is made and nothing is written — while the
manual regeneration command has no marker check and always issues its one
request. -/
theorem c8_marker_note_untouched (s : Settings) (st : PluginState) (ev : OpenEvent)
    (f : TFile) (raw : List Char)
    (hf : ev.file = some f) (hr : ev.readTarget = .ok raw)
    (hm : hasSub false completionMarker raw = true) :
    ((onFileOpen s st ev).netCalls = 0 ∧ (onFileOpen s st ev).writes = [])
    ∧ (∀ (t : TFile) (rc : Except Unit (List Char)) (q : Option (List Char))
        (link : List Char) (w fb : Bool), t.ext = "md" →
        (regenerateForCurrentNote s st (some t) rc q link w fb).netCalls = 1) := by
  constructor
  · have hmt : hasSub false completionMarker (jsTrim raw) = true :=
      hasSub_jsTrim completionMarker (by decide) (by decide) raw hm
    unfold onFileOpen
    simp only [hf, hr]
    cases hp : st.previousFile with
    | none => simp
    | some og =>
      by_cases he : f.ext = "md"
      · simp only [he, if_true]
        by_cases hin : f.path ∈ st.inFlight
        · simp [hin]
        · simp [hin, hmt]
      · simp [he]
  · intro t rc q link w fb ht
    unfold regenerateForCurrentNote
    simp only [ht, if_true]
    cases q <;> by_cases hw : w = true <;> by_cases hfb : fb = true <;>
      simp [hw, hfb]

/-- Witness for C8: a note already containing the full marker is skipped, and
the manual command still queries once. -/
theorem c8_witness :
    ((onFileOpen defaultSettings demoState
        { demoEvent none none with readTarget := .ok completionMarker }).netCalls = 0
      ∧ (onFileOpen defaultSettings demoState
          { demoEvent none none with readTarget := .ok completionMarker }).writes = [])
    ∧ ∀ (t : TFile) (rc : Except Unit (List Char)) (q : Option (List Char))
        (link : List Char) (w fb : Bool), t.ext = "md" →
        (regenerateForCurrentNote defaultSettings demoState (some t) rc q link w fb).netCalls
          = 1 :=
  c8_marker_note_untouched defaultSettings demoState
    { demoEvent none none with readTarget := .ok completionMarker }
    demoFile completionMarker rfl rfl (by decide)

/-- Claim C2: from a fresh (deleted) attempt counter, a handler pass that
reaches generation makes exactly two request attempts when the first fails
(one scheduled retry, never a third) and exactly one when the first succeeds;
and the per-path counter is back to its deleted state after every outcome —
success, terminal failure, and caught error alike. -/
theorem c2_retry_cap (s : Settings) (st : PluginState) (ev : OpenEvent)
    (f og : TFile) (raw ctx ctx2 : List Char)
    (hf : ev.file = some f) (he : f.ext = "md") (hp : st.previousFile = some og)
    (hin : st.inFlight.contains f.path = false)
    (hr : ev.readTarget = .ok raw)
    (hmk : hasSub false completionMarker (jsTrim raw) = false)
    (hsz : f.size = 0)
    (hrec : st.recentlyProcessed.contains f.path = false)
    (hro : ev.readOrigin = .ok ctx)
    (hrr : ev.readOriginRetry = .ok ctx2)
    (hatt : st.attemptCounts f.path = 0) :
    ((onFileOpen s st ev).state.attemptCounts f.path = 0)
    ∧ (ev.q1 = none → (onFileOpen s st ev).netCalls = 2)
    ∧ (∀ d, ev.q1 = some d → (onFileOpen s st ev).netCalls = 1) := by
  refine ⟨?_, ?_, ?_⟩
  · unfold onFileOpen
    simp only [hf, hp, he, if_true, hin, Bool.false_eq_true, if_false, hr, hmk,
      hsz, hrec, hro, hrr, hatt]
    repeat' split
    all_goals simp_all [deleteInFlight, deleteAttempts, setCount]
  · intro hq1
    unfold onFileOpen
    simp only [hf, hp, he, if_true, hin, Bool.false_eq_true, if_false, hr, hmk,
      hsz, hrec, hro, hrr, hatt, hq1]
    repeat' split
    all_goals simp_all [deleteInFlight, deleteAttempts, setCount]
  · intro d hq1
    unfold onFileOpen
    simp only [hf, hp, he, if_true, hin, Bool.false_eq_true, if_false, hr, hmk,
      hsz, hrec, hro, hrr, hatt, hq1]
    repeat' split
    all_goals simp_all [deleteInFlight, deleteAttempts, setCount]

/-- Witness for C2: concrete run with a failing first attempt and failing
retry — two attempts, counter cleared. -/
theorem c2_witness :
    ((onFileOpen defaultSettings demoState (demoEvent none none)).state.attemptCounts
        demoFile.path = 0)
    ∧ ((demoEvent none none).q1 = none →
        (onFileOpen defaultSettings demoState (demoEvent none none)).netCalls = 2)
    ∧ (∀ d, (demoEvent none none).q1 = some d →
        (onFileOpen defaultSettings demoState (demoEvent none none)).netCalls = 1) :=
  c2_retry_cap defaultSettings demoState (demoEvent none none) demoFile demoOrigin
    [] (("origin context line").toList) (("origin context line").toList)
    rfl rfl rfl rfl rfl (by decide) rfl rfl rfl rfl rfl

/-! ## Claim C3: response extraction -/

/-- The claim's 2xx JSON test body. -/
def c3JsonBody : List Char :=
  ("\x7b\"choices\":[\x7b\"message\":\x7b\"content\":\"X\"\x7d\x7d]\x7d").toList

/-- The claim's SSE test body: two delta fragments and the terminal sentinel. -/
def c3SseBody : List Char :=
  ("data: \x7b\"choices\":[\x7b\"delta\":\x7b\"content\":\"a\"\x7d\x7d]\x7d\ndata: \x7b\"choices\":[\x7b\"delta\":\x7b\"content\":\"b\"\x7d\x7d]\x7d\ndata: [DONE]").toList

/-- Claim C3: `queryCopilot` returns the extracted text trimmed of surrounding
whitespace, or the definitive no-result signal (`none`): every text it ever
returns is its own trim; a 2xx JSON body with `choices[0].message.content =
"X"` yields `"X"`; the body of `data:` delta lines for `"a"` and `"b"`
followed by `data: [DONE]` yields `"ab"`, the sentinel and unparsable
fragments being ignored; and when all three strategies yield no usable text
the result is `none`. -/
theorem c3_queryCopilot_extraction :
    (∀ (key : List Char) (r1 r2 r3 : Option WireResponse),
      (queryCopilot key r1 r2 r3).all (fun t => jsTrim t == t) = true)
    ∧ queryCopilot (("k").toList)
        (some ⟨true, ("application/json").toList, c3JsonBody⟩) none none
        = some (("X").toList)
    ∧ queryCopilot (("k").toList)
        (some ⟨true, ("application/json").toList, c3SseBody⟩) none none
        = some (("ab").toList)
    ∧ queryCopilot (("k").toList)
        (some ⟨true, ("application/json").toList, ("garbage").toList⟩)
        (some ⟨true, ("application/json").toList, ("garbage").toList⟩)
        (some ⟨true, ("application/json").toList, ("garbage").toList⟩)
        = none := by
  refine ⟨?_, by decide, by decide, by decide⟩
  intro key r1 r2 r3
  have h1 : ∀ resp, (attempt1 resp).all (fun t => jsTrim t == t) = true := by
    intro resp
    unfold attempt1
    repeat' split
    all_goals simp [Option.all, jsTrim_idem]
  have h2 : (attempt2 r2).all (fun t => jsTrim t == t) = true := by
    unfold attempt2
    repeat' split
    all_goals simp [Option.all, jsTrim_idem]
  have h3 : (attempt3 r3).all (fun t => jsTrim t == t) = true := by
    unfold attempt3
    repeat' split
    all_goals simp [Option.all, jsTrim_idem]
  have chain : ∀ (A B C : Option (List Char)) (f : List Char → Bool),
      A.all f = true → B.all f = true → C.all f = true →
      (match A with
       | some t => some t
       | none =>
         match B with
         | some t => some t
         | none => C).all f = true := by
    intro A B C f ha hb hc
    cases A <;> cases B <;> simp_all
  unfold queryCopilot
  split
  · simp
  · cases r1 with
    | none => simp
    | some resp1 =>
      exact chain (attempt1 resp1) (attempt2 r2) (attempt3 r3) _ (h1 resp1) h2 h3


/-! ## Lemmas on pattern search and the regex-removal passes -/

/-- The backtick character (U+0060). -/
def backtick : Char := Char.ofNat 96

theorem prefMatch_self (pat : List Char) :
    ∀ r : List Char, prefMatch false pat (pat ++ r) = true := by
  induction pat with
  | nil => intro r; simp [prefMatch]
  | cons p ps ih => intro r; simp [prefMatch, ih]

theorem prefMatch_ci_self (v : List Char) :
    ∀ (pat r : List Char), v.map lowerChar = pat →
      prefMatch true pat (v ++ r) = true := by
  induction v with
  | nil =>
    intro pat r h
    rw [← h]
    simp [prefMatch]
  | cons c cs ih =>
    intro pat r h
    rw [← h]
    simp only [List.map_cons, List.cons_append, prefMatch, List.append_eq]
    rw [ih (cs.map lowerChar) r rfl]
    simp

theorem findSub_of_prefMatch (ci : Bool) (pat cs : List Char)
    (h : prefMatch ci pat cs = true) : findSub ci pat cs = some 0 := by
  cases cs <;> simp [findSub, h]

theorem findSub_append_skip (ci : Bool) (p0 : Char) (ps : List Char) :
    ∀ (A r : List Char), (∀ a ∈ A, (if ci then lowerChar a == p0 else a == p0) = false) →
      findSub ci (p0 :: ps) (A ++ r) = (findSub ci (p0 :: ps) r).map (· + A.length) := by
  intro A
  induction A with
  | nil =>
    intro r _
    simp
  | cons a A ih =>
    intro r hA
    have hhead : prefMatch ci (p0 :: ps) (a :: (A ++ r)) = false := by
      simp only [prefMatch, hA a (by simp)]
      simp
    simp only [List.cons_append, findSub, List.append_eq, hhead, Bool.false_eq_true,
      if_false]
    rw [ih r (fun x hx => hA x (by simp [hx]))]
    cases findSub ci (p0 :: ps) r <;> simp [Nat.add_comm, Nat.add_assoc, Nat.add_left_comm]

theorem findSub_none_of_all (ci : Bool) (p0 : Char) (ps : List Char) :
    ∀ X : List Char, (∀ a ∈ X, (if ci then lowerChar a == p0 else a == p0) = false) →
      findSub ci (p0 :: ps) X = none := by
  intro X
  induction X with
  | nil => intro _; simp [findSub, prefMatch]
  | cons a X ih =>
    intro hX
    have hhead : prefMatch ci (p0 :: ps) (a :: X) = false := by
      simp only [prefMatch, hX a (by simp)]
      simp
    simp [findSub, hhead, ih (fun x hx => hX x (by simp [hx]))]

theorem stripSpansGo_of_none (ci : Bool) (opat cpat : List Char) (fuel : Nat)
    (cs : List Char) (h : findSub ci opat cs = none) :
    stripSpansGo ci opat cpat fuel cs = cs := by
  cases fuel <;> simp [stripSpansGo, h]

theorem findSub_cons_none (ci : Bool) (pat : List Char) (c : Char) (cs : List Char)
    (h : findSub ci pat (c :: cs) = none) : findSub ci pat cs = none := by
  simp only [findSub] at h
  split at h
  · simp at h
  · simpa [Option.map_eq_none'] using h

theorem findSub_drop_none (ci : Bool) (pat : List Char) :
    ∀ (cs : List Char) (n : Nat), findSub ci pat cs = none →
      findSub ci pat (cs.drop n) = none := by
  intro cs
  induction cs with
  | nil => intro n h; simpa [List.drop_nil] using h
  | cons c cs ih =>
    intro n h
    cases n with
    | zero => simpa using h
    | succ n =>
      rw [List.drop_succ_cons]
      exact ih n (findSub_cons_none ci pat c cs h)

theorem stripSpansGo_of_no_close (ci : Bool) (opat cpat : List Char) (fuel : Nat)
    (cs : List Char) (h : findSub ci cpat cs = none) :
    stripSpansGo ci opat cpat fuel cs = cs := by
  cases fuel with
  | zero => rfl
  | succ fuel =>
    simp only [stripSpansGo]
    cases ho : findSub ci opat cs with
    | none => rfl
    | some i =>
      simp [findSub_drop_none ci cpat cs (i + opat.length) h]

/-! ## Claim C10: unclosed regions -/

/-- Counterexample to claim C10 as stated: `<style>a<script>b</style>` has an
opening `<script>` with no `</script>` anywhere, yet with default settings the
whole text — including the opening script tag and everything after it — is
removed, because the enclosing `<style>…</style>` pair is stripped. -/
theorem c10_counterexample :
    hasSub true scriptOpen (("<style>a<script>b</style>").toList) = true
    ∧ findSub true scriptClose (("<style>a<script>b</style>").toList) = none
    ∧ sanitizeOutput defaultSettings (("<style>a<script>b</style>").toList) = [] := by
  refine ⟨by decide, by decide, ?_⟩
  decide

/-- Claim C10 (amended): each stripping rule removes a region only when its
own closing pattern occurs after the opening one — if `</script>` occurs
nowhere, the script pass returns its input unchanged (opening tag and all
following text preserved), and if the first ``` fence has no later ```, the
fence pass returns its input unchanged; and if additionally no other rule
finds a match and the length cap is not exceeded, `_sanitizeOutput` preserves
the whole input.  An unclosed `<script>` region can still be removed when it
lies inside another rule's closed region, so preservation is per rule, not
global. -/
theorem c10_amended (cs : List Char) :
    (findSub true scriptClose cs = none →
      stripSpans true scriptOpen scriptClose cs = cs)
    ∧ (∀ i, findSub false fenceTicks cs = some i →
        findSub false fenceTicks (cs.drop (i + fenceTicks.length)) = none →
        stripSpans false fenceTicks fenceTicks cs = cs)
    ∧ (∀ s : Settings,
        stripSpans false fenceTicks fenceTicks cs = cs →
        stripSpans true scriptOpen scriptClose cs = cs →
        stripSpans true iframeOpen iframeClose cs = cs →
        stripSpans true objectOpen objectClose cs = cs →
        stripSpans true embedOpen gtClose cs = cs →
        stripSpans true styleOpen styleClose cs = cs →
        s.allowCodeBlocks = false → s.allowRawHTML = false →
        cs.length ≤ effectiveMaxLen s →
        sanitizeOutput s cs = cs) := by
  refine ⟨?_, ?_, ?_⟩
  · intro h
    exact stripSpansGo_of_no_close true scriptOpen scriptClose (cs.length + 1) cs h
  · intro i hi hnone
    show stripSpansGo false fenceTicks fenceTicks (cs.length + 1) cs = cs
    simp only [stripSpansGo, hi, hnone]
  · intro s h1 h2 h3 h4 h5 h6 hcb hhtml hlen
    cases hcs : cs with
    | nil => simp [sanitizeOutput]
    | cons x xs =>
      rw [← hcs]
      unfold sanitizeOutput stripDangerous
      rw [if_neg (by simp [hcs])]
      simp only [hcb, hhtml, Bool.false_eq_true, if_false, h1, h2, h3, h4, h5, h6]
      rw [if_neg (by omega)]

/-- Witness for C10 (amended) at a concrete input: `x<script>y` with no
closing tag anywhere is preserved whole by `_sanitizeOutput`. -/
theorem c10_witness :
    (findSub true scriptClose (("x<script>y").toList) = none →
      stripSpans true scriptOpen scriptClose (("x<script>y").toList)
        = ("x<script>y").toList)
    ∧ (∀ i, findSub false fenceTicks (("x<script>y").toList) = some i →
        findSub false fenceTicks ((("x<script>y").toList).drop (i + fenceTicks.length))
          = none →
        stripSpans false fenceTicks fenceTicks (("x<script>y").toList)
          = ("x<script>y").toList)
    ∧ (∀ s : Settings,
        stripSpans false fenceTicks fenceTicks (("x<script>y").toList)
          = ("x<script>y").toList →
        stripSpans true scriptOpen scriptClose (("x<script>y").toList)
          = ("x<script>y").toList →
        stripSpans true iframeOpen iframeClose (("x<script>y").toList)
          = ("x<script>y").toList →
        stripSpans true objectOpen objectClose (("x<script>y").toList)
          = ("x<script>y").toList →
        stripSpans true embedOpen gtClose (("x<script>y").toList)
          = ("x<script>y").toList →
        stripSpans true styleOpen styleClose (("x<script>y").toList)
          = ("x<script>y").toList →
        s.allowCodeBlocks = false → s.allowRawHTML = false →
        (("x<script>y").toList).length ≤ effectiveMaxLen s →
        sanitizeOutput s (("x<script>y").toList) = ("x<script>y").toList) :=
  c10_amended (("x<script>y").toList)

/-! ## Claim C4: truncation -/

/-- Settings with a small cap, to exercise truncation concretely. -/
def c4Settings : Settings :=
  { licenseKey := []
    allowCodeBlocks := false
    allowRawHTML := false
    maxOutputLength := 5 }

/-- Counterexample to claim C4 as stated: with a cap of 5, model output
`abcdefghij` (no code blocks or HTML) is sanitized to exactly the first five
characters plus the truncation notice, but the document the generation flow
persists is *not* that text: the Source-Context splice runs afterwards and
appends a whole section after the truncation notice. -/
theorem c4_counterexample :
    generatedDoc c4Settings (("[[O]]").toList) (("abcdefghij").toList)
      ≠ ((("abcdefghij").toList).take 5) ++ truncationNotice := by
  decide

/-- Claim C4 (amended): whenever the stripped model output exceeds the cap,
`_sanitizeOutput` itself returns exactly the first `maxOutputLength`
characters followed by the fixed truncation notice; the persisted document is
that text with the Source-Context splice applied afterwards, and when
truncation removed the Source Context header the splice appends a fresh
section — content *is* added after the truncation notice. -/
theorem c4_amended (s : Settings) (link text : List Char)
    (h : (stripDangerous s text).length > effectiveMaxLen s) (hne : text ≠ []) :
    sanitizeOutput s text
      = (stripDangerous s text).take (effectiveMaxLen s) ++ truncationNotice
    ∧ generatedDoc s link text
      = ensureSourceContextFromLine
          ((stripDangerous s text).take (effectiveMaxLen s) ++ truncationNotice) link
    ∧ (findHeaderIdx (splitLines
          ((stripDangerous s text).take (effectiveMaxLen s) ++ truncationNotice)) = none →
        generatedDoc s link text
          = jsTrim ((stripDangerous s text).take (effectiveMaxLen s) ++ truncationNotice)
            ++ ('\n' :: '\n' :: sourceContextHeaderRaw) ++ '\n' :: fromLineFor link ++ ['\n']) := by
  have hsan : sanitizeOutput s text
      = (stripDangerous s text).take (effectiveMaxLen s) ++ truncationNotice := by
    unfold sanitizeOutput
    rw [if_neg hne, if_pos h]
  refine ⟨hsan, ?_, ?_⟩
  · unfold generatedDoc
    rw [hsan]
  · intro hhdr
    unfold generatedDoc
    rw [hsan]
    have hXne : (stripDangerous s text).take (effectiveMaxLen s) ++ truncationNotice ≠ [] := by
      simp [truncationNotice]
    simp [ensureSourceContextFromLine, hXne, hhdr]

/-- Witness for C4 (amended) at the concrete truncation scenario. -/
theorem c4_witness :
    sanitizeOutput c4Settings (("abcdefghij").toList)
      = ((stripDangerous c4Settings (("abcdefghij").toList)).take
          (effectiveMaxLen c4Settings)) ++ truncationNotice
    ∧ generatedDoc c4Settings (("[[O]]").toList) (("abcdefghij").toList)
      = ensureSourceContextFromLine
          ((stripDangerous c4Settings (("abcdefghij").toList)).take
            (effectiveMaxLen c4Settings) ++ truncationNotice) (("[[O]]").toList)
    ∧ (findHeaderIdx (splitLines
          ((stripDangerous c4Settings (("abcdefghij").toList)).take
            (effectiveMaxLen c4Settings) ++ truncationNotice)) = none →
        generatedDoc c4Settings (("[[O]]").toList) (("abcdefghij").toList)
          = jsTrim ((stripDangerous c4Settings (("abcdefghij").toList)).take
              (effectiveMaxLen c4Settings) ++ truncationNotice)
            ++ ('\n' :: '\n' :: sourceContextHeaderRaw) ++ '\n'
              :: fromLineFor (("[[O]]").toList) ++ ['\n']) :=
  c4_amended c4Settings (("[[O]]").toList) (("abcdefghij").toList) (by decide) (by decide)


/-! ## Claim C5: sanitization of code blocks and script elements -/

/-- One fence-pass removal: a single ```-delimited block surrounded by
backtick-free text is deleted and the rest is untouched. -/
theorem fencePass_removes (a f X : List Char)
    (ha : ∀ x ∈ a, (x == backtick) = false)
    (hf : ∀ x ∈ f, (x == backtick) = false)
    (hX : ∀ x ∈ X, (x == backtick) = false) :
    stripSpans false fenceTicks fenceTicks (a ++ (fenceTicks ++ (f ++ (fenceTicks ++ X))))
      = a ++ X := by
  have hft : fenceTicks = backtick :: ("``").toList := by decide
  have h1 : findSub false fenceTicks (a ++ (fenceTicks ++ (f ++ (fenceTicks ++ X))))
      = some a.length := by
    rw [hft, findSub_append_skip false backtick (("``").toList) a _
        (by intro x hx; simpa using ha x hx), ← hft,
      findSub_of_prefMatch false fenceTicks _ (prefMatch_self fenceTicks _)]
    simp
  show stripSpansGo false fenceTicks fenceTicks _ _ = a ++ X
  simp only [stripSpansGo, h1]
  have hdrop1 : (a ++ (fenceTicks ++ (f ++ (fenceTicks ++ X)))).drop
      (a.length + fenceTicks.length) = f ++ (fenceTicks ++ X) := by
    rw [← List.append_assoc,
      show a.length + fenceTicks.length = (a ++ fenceTicks).length by simp]
    exact List.drop_left _ _
  rw [hdrop1]
  have h2 : findSub false fenceTicks (f ++ (fenceTicks ++ X)) = some f.length := by
    rw [hft, findSub_append_skip false backtick (("``").toList) f _
        (by intro x hx; simpa using hf x hx), ← hft,
      findSub_of_prefMatch false fenceTicks _ (prefMatch_self fenceTicks _)]
    simp
  simp only [h2]
  have hdrop2 : (f ++ (fenceTicks ++ X)).drop (f.length + fenceTicks.length) = X := by
    rw [← List.append_assoc,
      show f.length + fenceTicks.length = (f ++ fenceTicks).length by simp]
    exact List.drop_left _ _
  rw [hdrop2]
  rw [stripSpansGo_of_none false fenceTicks fenceTicks _ X
      (by rw [hft]
          exact findSub_none_of_all false backtick _ X
            (by intro x hx; simpa using hX x hx))]
  rw [show (a ++ (fenceTicks ++ (f ++ (fenceTicks ++ X)))).take a.length = a from
    List.take_left _ _]

/-- One script-pass removal: a single `<script>…</script>` element surrounded
by text free of `<` is deleted and the rest is untouched. -/
theorem scriptPass_removes (ab sb c : List Char)
    (hab : ∀ x ∈ ab, (lowerChar x == '<') = false)
    (hsb : ∀ x ∈ sb, (lowerChar x == '<') = false)
    (hc : ∀ x ∈ c, (lowerChar x == '<') = false) :
    stripSpans true scriptOpen scriptClose
      (ab ++ (scriptOpen ++ ('>' :: (sb ++ (scriptClose ++ c))))) = ab ++ c := by
  have hso : scriptOpen = '<' :: ("script").toList := by decide
  have hsc : scriptClose = '<' :: ("/script>").toList := by decide
  have h1 : findSub true scriptOpen (ab ++ (scriptOpen ++ ('>' :: (sb ++ (scriptClose ++ c)))))
      = some ab.length := by
    rw [hso, findSub_append_skip true '<' (("script").toList) ab _
        (by intro x hx; simpa using hab x hx), ← hso,
      findSub_of_prefMatch true scriptOpen _
        (prefMatch_ci_self scriptOpen scriptOpen _ (by decide))]
    simp
  show stripSpansGo true scriptOpen scriptClose _ _ = ab ++ c
  simp only [stripSpansGo, h1]
  have hdrop1 : (ab ++ (scriptOpen ++ ('>' :: (sb ++ (scriptClose ++ c))))).drop
      (ab.length + scriptOpen.length) = '>' :: (sb ++ (scriptClose ++ c)) := by
    rw [← List.append_assoc,
      show ab.length + scriptOpen.length = (ab ++ scriptOpen).length by simp]
    exact List.drop_left _ _
  rw [hdrop1]
  have hgt : (lowerChar '>' == '<') = false := by decide
  have h2 : findSub true scriptClose ('>' :: (sb ++ (scriptClose ++ c)))
      = some (sb.length + 1) := by
    have hshape : '>' :: (sb ++ (scriptClose ++ c)) = ('>' :: sb) ++ (scriptClose ++ c) := by
      simp
    rw [hshape, hsc, findSub_append_skip true '<' (("/script>").toList) ('>' :: sb) _
        (by intro x hx
            rcases List.mem_cons.mp hx with rfl | hx2
            · simpa using hgt
            · simpa using hsb x hx2), ← hsc,
      findSub_of_prefMatch true scriptClose _
        (prefMatch_ci_self scriptClose scriptClose _ (by decide))]
    simp [Nat.add_comm]
  simp only [h2]
  have hdrop2 : ('>' :: (sb ++ (scriptClose ++ c))).drop (sb.length + 1 + scriptClose.length)
      = c := by
    have hshape : '>' :: (sb ++ (scriptClose ++ c)) = (('>' :: sb) ++ scriptClose) ++ c := by
      simp
    rw [hshape,
      show sb.length + 1 + scriptClose.length = (('>' :: sb) ++ scriptClose).length by
        simp [Nat.add_comm, Nat.add_assoc, Nat.add_left_comm]]
    exact List.drop_left _ _
  rw [hdrop2]
  rw [stripSpansGo_of_none true scriptOpen scriptClose _ c
      (by rw [hso]
          exact findSub_none_of_all true '<' _ c
            (by intro x hx; simpa using hc x hx))]
  rw [show (ab ++ (scriptOpen ++ ('>' :: (sb ++ (scriptClose ++ c))))).take ab.length = ab from
    List.take_left _ _]

/-- A case-insensitive tag pass whose opening pattern starts with a character
absent from the text is the identity. -/
theorem tagPass_id (opat cpat : List Char) (p0 : Char) (ps : List Char)
    (hpat : opat = p0 :: ps) (X : List Char)
    (hX : ∀ x ∈ X, (lowerChar x == p0) = false) :
    stripSpans true opat cpat X = X := by
  apply stripSpansGo_of_none
  rw [hpat]
  exact findSub_none_of_all true p0 ps X (by intro x hx; simpa using hX x hx)

/-- The input of the C5 counterexample: a fenced block followed by a split
`<script>` that reassembles after removal. -/
def c5Cex : List Char := ("```c```<sc<script>b</script>ript>b</script>").toList

/-- Counterexample to claim C5 as stated: `c5Cex` contains a fenced code
block and a `<script>…</script>` pair, yet with both toggles at their default
(off) the sanitized result is itself a complete `<script>…</script>` element
— removal of the matched spans joined the surrounding fragments into a new
script element, so the result does not "contain neither". -/
theorem c5_counterexample :
    hasSub false fenceTicks c5Cex = true
    ∧ hasSub true scriptOpen c5Cex = true
    ∧ hasSub true scriptClose c5Cex = true
    ∧ sanitizeOutput defaultSettings c5Cex = ("<script>b</script>").toList
    ∧ hasSub true scriptOpen (sanitizeOutput defaultSettings c5Cex) = true
    ∧ hasSub true scriptClose (sanitizeOutput defaultSettings c5Cex) = true := by
  refine ⟨by decide, by decide, by decide, by decide, by decide, by decide⟩

/-- Claim C5 (amended): with both toggles enabled the output is preserved
verbatim up to the length cap; with the default toggles (off), for model
output of the shape `a ++ ```f``` ++ b ++ <script>sb</script> ++ c` in which
the surrounding text and bodies contain no further backticks and no `<`
characters, the sanitized result is exactly `a ++ b ++ c`, and it contains
neither a fence nor a script opening.  (Adversarial fragment boundaries can
reassemble a new script element — see the counterexample — so the guarantee
needs the no-stray-delimiters condition.) -/
theorem c5_amended :
    (∀ (s : Settings) (text : List Char), s.allowCodeBlocks = true →
        s.allowRawHTML = true → text.length ≤ effectiveMaxLen s →
        sanitizeOutput s text = text)
    ∧ (∀ a f b sb c : List Char,
        (∀ x ∈ a, (x == backtick) = false ∧ (lowerChar x == '<') = false) →
        (∀ x ∈ f, (x == backtick) = false) →
        (∀ x ∈ b, (x == backtick) = false ∧ (lowerChar x == '<') = false) →
        (∀ x ∈ sb, (x == backtick) = false ∧ (lowerChar x == '<') = false) →
        (∀ x ∈ c, (x == backtick) = false ∧ (lowerChar x == '<') = false) →
        ((a ++ b) ++ c).length ≤ 60000 →
        sanitizeOutput defaultSettings
          (a ++ (fenceTicks ++ (f ++ (fenceTicks ++
            (b ++ (scriptOpen ++ ('>' :: (sb ++ (scriptClose ++ c)))))))))
          = (a ++ b) ++ c
        ∧ findSub false fenceTicks ((a ++ b) ++ c) = none
        ∧ findSub true scriptOpen ((a ++ b) ++ c) = none) := by
  constructor
  · intro s text hcb hhtml hlen
    unfold sanitizeOutput stripDangerous
    cases htext : text with
    | nil => simp
    | cons x xs =>
      rw [← htext, if_neg (by simp [htext])]
      simp only [hcb, hhtml, if_true]
      rw [if_neg (by omega)]
  · intro a f b sb c ha hf hb hsb hc hlen
    have hsoTick : ∀ x ∈ scriptOpen, (x == backtick) = false := by decide
    have hscTick : ∀ x ∈ scriptClose, (x == backtick) = false := by decide
    have hgtTick : (('>' : Char) == backtick) = false := by decide
    have hXfence : ∀ x ∈ b ++ (scriptOpen ++ ('>' :: (sb ++ (scriptClose ++ c)))),
        (x == backtick) = false := by
      intro x hx
      simp only [List.mem_append, List.mem_cons] at hx
      rcases hx with hx | hx | hx | hx | hx | hx
      · exact (hb x hx).1
      · exact hsoTick x hx
      · rw [hx]; exact hgtTick
      · exact (hsb x hx).1
      · exact hscTick x hx
      · exact (hc x hx).1
    have hstep1 : stripSpans false fenceTicks fenceTicks
        (a ++ (fenceTicks ++ (f ++ (fenceTicks ++
          (b ++ (scriptOpen ++ ('>' :: (sb ++ (scriptClose ++ c)))))))))
        = a ++ (b ++ (scriptOpen ++ ('>' :: (sb ++ (scriptClose ++ c))))) :=
      fencePass_removes a f _ (fun x hx => (ha x hx).1) hf hXfence
    have hstep2 : stripSpans true scriptOpen scriptClose
        (a ++ (b ++ (scriptOpen ++ ('>' :: (sb ++ (scriptClose ++ c))))))
        = (a ++ b) ++ c := by
      rw [← List.append_assoc]
      exact scriptPass_removes (a ++ b) sb c
        (by intro x hx
            rcases List.mem_append.mp hx with hx | hx
            · exact (ha x hx).2
            · exact (hb x hx).2)
        (fun x hx => (hsb x hx).2) (fun x hx => (hc x hx).2)
    have habc : ∀ x ∈ (a ++ b) ++ c, (lowerChar x == '<') = false := by
      intro x hx
      rcases List.mem_append.mp hx with hx | hx
      · rcases List.mem_append.mp hx with hx | hx
        · exact (ha x hx).2
        · exact (hb x hx).2
      · exact (hc x hx).2
    have habcTick : ∀ x ∈ (a ++ b) ++ c, (x == backtick) = false := by
      intro x hx
      rcases List.mem_append.mp hx with hx | hx
      · rcases List.mem_append.mp hx with hx | hx
        · exact (ha x hx).1
        · exact (hb x hx).1
      · exact (hc x hx).1
    refine ⟨?_, ?_, ?_⟩
    · unfold sanitizeOutput stripDangerous
      rw [if_neg (by
        intro hnil
        have : fenceTicks = [] := by
          rcases List.append_eq_nil.mp hnil with ⟨_, h2⟩
          exact (List.append_eq_nil.mp h2).1
        exact absurd this (by decide))]
      simp only [defaultSettings, Bool.false_eq_true, if_false]
      rw [hstep1, hstep2]
      rw [tagPass_id iframeOpen iframeClose '<' (("iframe").toList) (by decide) _
          habc,
        tagPass_id objectOpen objectClose '<' (("object").toList) (by decide) _
          habc,
        tagPass_id embedOpen gtClose '<' (("embed").toList) (by decide) _
          habc,
        tagPass_id styleOpen styleClose '<' (("style").toList) (by decide) _
          habc]
      rw [if_neg (by
        simp only [effectiveMaxLen, defaultSettings]
        norm_num
        simp only [List.length_append] at hlen ⊢
        omega)]
    · have hft : fenceTicks = backtick :: ("``").toList := by decide
      rw [hft]
      exact findSub_none_of_all false backtick _ _
        (by intro x hx; simpa using habcTick x hx)
    · have hso : scriptOpen = '<' :: ("script").toList := by decide
      rw [hso]
      exact findSub_none_of_all true '<' _ _
        (by intro x hx; simpa using habc x hx)


/-- Witness for C5 (amended): verbatim preservation with both toggles on, and
exact removal of one fenced block plus one script element from clean text. -/
theorem c5_witness :
    sanitizeOutput
        { licenseKey := [], allowCodeBlocks := true, allowRawHTML := true,
          maxOutputLength := 60000 } (("hello").toList) = ("hello").toList
    ∧ (sanitizeOutput defaultSettings
        ((("A ").toList) ++ (fenceTicks ++ ((("code").toList) ++ (fenceTicks ++
          (((" B ").toList) ++ (scriptOpen ++ ('>' :: ((("alert(1)").toList) ++
            (scriptClose ++ ((" C").toList))))))))))
        = ((("A ").toList) ++ ((" B ").toList)) ++ ((" C").toList)
      ∧ findSub false fenceTicks (((("A ").toList) ++ ((" B ").toList)) ++ ((" C").toList))
          = none
      ∧ findSub true scriptOpen (((("A ").toList) ++ ((" B ").toList)) ++ ((" C").toList))
          = none) :=
  ⟨c5_amended.1 _ _ rfl rfl (by decide),
   c5_amended.2 (("A ").toList) (("code").toList) ((" B ").toList)
     (("alert(1)").toList) ((" C").toList)
     (by decide) (by decide) (by decide) (by decide) (by decide) (by decide)⟩


/-! ## Claims C6 and C7: the section splice.
The delicate part is that trimming the whole document (done on the
no-header path) can neither create nor destroy a Source-Context header
line, since the header test itself trims each line. -/

theorem isHeaderLine_nil : isHeaderLine [] = false := by decide

theorem isHeaderLine_cons_ws (c : Char) (l : List Char) (hc : isWS c = true) :
    isHeaderLine (c :: l) = isHeaderLine l := by
  unfold isHeaderLine jsTrim
  rw [List.dropWhile_cons_of_pos (by simp [hc])]

theorem isHeaderLine_singleton (c : Char) (hc : isWS c = false) :
    isHeaderLine [c] = false := by
  have h1 : jsTrim [c] = [c] := by
    unfold jsTrim
    rw [List.dropWhile_cons_of_neg (by simp [hc])]
    simp [rdropWS, hc]
  unfold isHeaderLine
  rw [h1]
  have hne : [lowerChar c] ≠ sourceContextHeaderLC := by
    intro h
    have := congrArg List.length h
    simp [sourceContextHeaderLC] at this
  simpa using beq_false_of_ne hne

theorem isHeaderLine_rdropWS (l : List Char) :
    isHeaderLine (rdropWS l) = isHeaderLine l := by
  unfold isHeaderLine jsTrim
  rw [dropWhile_rdropWS_comm, rdropWS_idem]

/-- The lines of the tail of a document whose head character is whitespace
have no header line when the whole document has none. -/
theorem noHeader_of_cons_ws (c : Char) (cs : List Char) (hc : isWS c = true)
    (h : ∀ l ∈ splitLines (c :: cs), isHeaderLine l = false) :
    ∀ l ∈ splitLines cs, isHeaderLine l = false := by
  by_cases hnl : c = '\n'
  · subst hnl
    rw [splitLines_cons_newline] at h
    intro l hl
    exact h l (by simp [hl])
  · rw [splitLines_cons_of_ne c cs hnl] at h
    rcases hsp : splitLines cs with _ | ⟨hd, tl⟩
    · exact absurd hsp (splitLines_ne_nil cs)
    · rw [hsp] at h
      simp only [List.headI, List.tail] at h
      intro l hl
      rcases List.mem_cons.mp hl with rfl | hl2
      · have := h (c :: l) (by simp)
        rwa [isHeaderLine_cons_ws c l hc] at this
      · exact h l (by simp [hl2])

/-- A document with no header line keeps having none after leading
whitespace is removed. -/
theorem noHeader_dropWhileWS (t : List Char) :
    (∀ l ∈ splitLines t, isHeaderLine l = false) →
    ∀ l ∈ splitLines (t.dropWhile isWS), isHeaderLine l = false := by
  induction t with
  | nil => intro h; simpa using h
  | cons c cs ih =>
    intro h
    by_cases hc : isWS c = true
    · rw [List.dropWhile_cons_of_pos (by simp [hc])]
      exact ih (noHeader_of_cons_ws c cs hc h)
    · rw [List.dropWhile_cons_of_neg (by simp [hc])]
      exact h

/-- Right-trimming a line list: drop trailing all-whitespace lines and
right-trim the last surviving line (the line-level picture of `rdropWS`). -/
def rtrimLines : List (List Char) → List (List Char)
  | [] => []
  | l :: ls =>
    match rtrimLines ls with
    | [] =>
      match rdropWS l with
      | [] => []
      | l2 => [l2]
    | ls2 => l :: ls2

def orEmpty : List (List Char) → List (List Char)
  | [] => [[]]
  | x => x

theorem allWS_lines (cs : List Char) :
    (∀ a ∈ cs, isWS a = true) →
    ∀ l ∈ splitLines cs, ∀ a ∈ l, isWS a = true := by
  induction cs with
  | nil => intro _; simp [splitLines]
  | cons c cs ih =>
    intro hws
    by_cases hnl : c = '\n'
    · subst hnl
      rw [splitLines_cons_newline]
      intro l hl
      rcases List.mem_cons.mp hl with rfl | hl2
      · simp
      · exact ih (fun a ha => hws a (by simp [ha])) l hl2
    · rw [splitLines_cons_of_ne c cs hnl]
      rcases hsp : splitLines cs with _ | ⟨hd, tl⟩
      · exact absurd hsp (splitLines_ne_nil cs)
      · simp only [List.headI, List.tail]
        intro l hl
        rcases List.mem_cons.mp hl with rfl | hl2
        · intro a ha
          rcases List.mem_cons.mp ha with rfl | ha2
          · exact hws a (by simp)
          · exact ih (fun x hx => hws x (by simp [hx])) hd (by simp [hsp]) a ha2
        · exact ih (fun x hx => hws x (by simp [hx])) l (by simp [hsp, hl2])

theorem rtrimLines_nil_of_ws (L : List (List Char))
    (h : ∀ l ∈ L, ∀ a ∈ l, isWS a = true) : rtrimLines L = [] := by
  induction L with
  | nil => rfl
  | cons l ls ih =>
    have h1 : rtrimLines ls = [] := ih (fun x hx => h x (by simp [hx]))
    have h2 : rdropWS l = [] := (rdropWS_eq_nil_iff l).mpr (h l (by simp))
    simp [rtrimLines, h1, h2]

theorem splitLines_rdropWS (t : List Char) :
    splitLines (rdropWS t) = orEmpty (rtrimLines (splitLines t)) := by
  induction t with
  | nil => simp [rdropWS, splitLines, rtrimLines, orEmpty]
  | cons c cs ih =>
    rcases hr : rdropWS cs with _ | ⟨r, rs⟩
    · have hws : ∀ a ∈ cs, isWS a = true := (rdropWS_eq_nil_iff cs).mp hr
      by_cases hc : isWS c = true
      · rw [rdropWS_cons_of_nil c cs hr, if_pos hc]
        have hall : ∀ a ∈ c :: cs, isWS a = true := by
          intro a ha
          rcases List.mem_cons.mp ha with rfl | ha2
          · exact hc
          · exact hws a ha2
        rw [rtrimLines_nil_of_ws _ (allWS_lines (c :: cs) hall)]
        simp [splitLines, orEmpty]
      · have hnl : c ≠ '\n' := by
          intro hx
          subst hx
          simp [isWS] at hc
        rw [rdropWS_cons_of_nil c cs hr, if_neg (by simp [hc])]
        rw [splitLines_cons_of_ne c cs hnl]
        rcases hsp : splitLines cs with _ | ⟨hd, tl⟩
        · exact absurd hsp (splitLines_ne_nil cs)
        · simp only [List.headI, List.tail]
          have hlinesws := allWS_lines cs hws
          rw [hsp] at hlinesws
          have htl : rtrimLines tl = [] :=
            rtrimLines_nil_of_ws tl (fun x hx => hlinesws x (by simp [hx]))
          have hhd : rdropWS hd = [] :=
            (rdropWS_eq_nil_iff hd).mpr (hlinesws hd (by simp))
          have hch : rdropWS (c :: hd) = [c] := by
            rw [rdropWS_cons_of_nil c hd hhd, if_neg (by simp [hc])]
          rw [splitLines_no_newline [c] (by simpa using Ne.symm hnl)]
          simp [rtrimLines, htl, hch, orEmpty]
    · rw [hr] at ih
      have hne : rtrimLines (splitLines cs) ≠ [] := by
        intro hx
        rw [hx] at ih
        have h1 : splitLines (r :: rs) = [[]] := by simpa [orEmpty] using ih
        have := splitLines_eq_singleton_nil (r :: rs) h1
        simp at this
      rcases hm : rtrimLines (splitLines cs) with _ | ⟨m, ms⟩
      · exact absurd hm hne
      · rw [hm] at ih
        have ih2 : splitLines (r :: rs) = m :: ms := by simpa [orEmpty] using ih
        by_cases hnl : c = '\n'
        · subst hnl
          rw [rdropWS_cons_of_cons _ cs r rs hr, splitLines_cons_newline, ih2,
            splitLines_cons_newline]
          have hrt : rtrimLines ([] :: splitLines cs) = [] :: m :: ms := by
            simp [rtrimLines, hm]
          rw [hrt]
          simp [orEmpty]
        · rw [rdropWS_cons_of_cons _ cs r rs hr, splitLines_cons_of_ne c _ hnl, ih2,
            splitLines_cons_of_ne c cs hnl]
          simp only [List.headI, List.tail]
          rcases hsp : splitLines cs with _ | ⟨hd, tl⟩
          · exact absurd hsp (splitLines_ne_nil cs)
          · simp only [List.headI, List.tail]
            rw [hsp] at hm
            rcases htl : rtrimLines tl with _ | ⟨x, xs⟩
            · have hmm : (match rdropWS hd with
                  | [] => ([] : List (List Char))
                  | l2 => [l2]) = m :: ms := by
                simpa [rtrimLines, htl] using hm
              rcases hhd : rdropWS hd with _ | ⟨d, ds⟩
              · rw [hhd] at hmm
                simp at hmm
              · rw [hhd] at hmm
                simp only at hmm
                have hm1 : m = d :: ds := ((List.cons_eq_cons.mp hmm).1).symm
                have hm2 : ms = [] := ((List.cons_eq_cons.mp hmm).2).symm
                have hrt : rtrimLines ((c :: hd) :: tl) = [c :: d :: ds] := by
                  simp [rtrimLines, htl, rdropWS_cons_of_cons c hd d ds hhd]
                rw [hrt]
                simp [orEmpty, hm1, hm2]
            · have hmm := hm
              rw [show rtrimLines (hd :: tl) = hd :: x :: xs by
                simp [rtrimLines, htl]] at hmm
              have hm1 : m = hd := ((List.cons_eq_cons.mp hmm).1).symm
              have hm2 : ms = x :: xs := ((List.cons_eq_cons.mp hmm).2).symm
              have hrt : rtrimLines ((c :: hd) :: tl) = (c :: hd) :: x :: xs := by
                simp [rtrimLines, htl]
              rw [hrt]
              simp [orEmpty, hm1, hm2]


theorem mem_rtrimLines (L : List (List Char)) :
    ∀ l2 ∈ rtrimLines L, ∃ l ∈ L, l2 = l ∨ l2 = rdropWS l := by
  induction L with
  | nil => simp [rtrimLines]
  | cons l ls ih =>
    intro l2 h2
    rcases hr : rtrimLines ls with _ | ⟨y, ys⟩
    · rw [hr] at ih
      simp only [rtrimLines, hr] at h2
      rcases hd : rdropWS l with _ | ⟨d, ds⟩
      · rw [hd] at h2
        simp at h2
      · rw [hd] at h2
        simp only at h2
        have hl2 : l2 = d :: ds := by simpa using h2
        exact ⟨l, by simp, Or.inr (by rw [hl2, hd])⟩
    · simp only [rtrimLines, hr] at h2
      rcases List.mem_cons.mp h2 with heq | h3
      · exact ⟨l, by simp, Or.inl heq⟩
      · obtain ⟨l0, hl0, hor⟩ := ih l2 (by rw [hr]; exact h3)
        exact ⟨l0, by simp [hl0], hor⟩

theorem noHeader_rdropWS (t : List Char)
    (h : ∀ l ∈ splitLines t, isHeaderLine l = false) :
    ∀ l ∈ splitLines (rdropWS t), isHeaderLine l = false := by
  rw [splitLines_rdropWS]
  rcases hx : rtrimLines (splitLines t) with _ | ⟨y, ys⟩
  · intro l hl
    simp [orEmpty] at hl
    rw [hl]
    exact isHeaderLine_nil
  · intro l hl
    have hl2 : l ∈ rtrimLines (splitLines t) := by
      rw [hx]
      simpa [orEmpty] using hl
    obtain ⟨l0, hl0, hor⟩ := mem_rtrimLines _ l hl2
    rcases hor with heq | heq
    · rw [heq]
      exact h l0 hl0
    · rw [heq, isHeaderLine_rdropWS]
      exact h l0 hl0

/-- Trimming the whole document preserves "no Source-Context header line". -/
theorem noHeader_jsTrim (t : List Char)
    (h : ∀ l ∈ splitLines t, isHeaderLine l = false) :
    ∀ l ∈ splitLines (jsTrim t), isHeaderLine l = false :=
  noHeader_rdropWS _ (noHeader_dropWhileWS t h)

theorem findHeaderIdx_eq_none (L : List (List Char)) :
    findHeaderIdx L = none ↔ ∀ l ∈ L, isHeaderLine l = false := by
  induction L with
  | nil => simp [findHeaderIdx]
  | cons l ls ih =>
    by_cases hl : isHeaderLine l = true
    · simp [findHeaderIdx, hl]
    · have hl2 : isHeaderLine l = false := by simpa using hl
      simp [findHeaderIdx, hl2, Option.map_eq_none', ih]

theorem findHeaderIdx_append_none (L1 L2 : List (List Char))
    (h : ∀ l ∈ L1, isHeaderLine l = false) :
    findHeaderIdx (L1 ++ L2) = (findHeaderIdx L2).map (· + L1.length) := by
  induction L1 with
  | nil => simp
  | cons l ls ih =>
    simp only [List.cons_append, findHeaderIdx, List.append_eq, h l (by simp),
      Bool.false_eq_true, if_false]
    rw [ih (fun x hx => h x (by simp [hx]))]
    cases findHeaderIdx L2 <;> simp [Nat.add_comm, Nat.add_assoc, Nat.add_left_comm]

theorem findHeaderIdx_lt_length (L : List (List Char)) :
    ∀ i, findHeaderIdx L = some i → i < L.length := by
  induction L with
  | nil => intro i h; simp [findHeaderIdx] at h
  | cons l ls ih =>
    intro i h
    simp only [findHeaderIdx] at h
    split at h
    · have : (0 : Nat) = i := by simpa using h
      simp [← this]
    · rcases Option.map_eq_some'.mp h with ⟨j, hj, hji⟩
      have := ih j hj
      simp only [List.length_cons]
      omega

/-- The first header index survives keeping the prefix through the header and
appending anything after it. -/
theorem findHeaderIdx_take_append (L : List (List Char)) :
    ∀ (i : Nat) (M : List (List Char)), findHeaderIdx L = some i →
      findHeaderIdx (L.take (i + 1) ++ M) = some i := by
  induction L with
  | nil => intro i M h; simp [findHeaderIdx] at h
  | cons l ls ih =>
    intro i M h
    simp only [findHeaderIdx] at h
    by_cases hl : isHeaderLine l = true
    · rw [if_pos hl] at h
      have hi : (0 : Nat) = i := by simpa using h
      rw [← hi]
      simp [findHeaderIdx, hl]
    · rw [if_neg hl] at h
      rcases Option.map_eq_some'.mp h with ⟨j, hj, hji⟩
      rw [← hji]
      rw [List.take_succ_cons, List.cons_append]
      simp only [findHeaderIdx, hl, Bool.false_eq_true, if_false]
      rw [ih j M hj]
      rfl

theorem splitLines_joinLines (Ls : List (List Char)) (h : Ls ≠ []) :
    splitLines (joinLines Ls) = (Ls.map splitLines).flatten := by
  induction Ls with
  | nil => exact absurd rfl h
  | cons l ls ih =>
    cases ls with
    | nil => simp [joinLines]
    | cons l2 ls2 =>
      have hj : joinLines (l :: l2 :: ls2) = l ++ '\n' :: joinLines (l2 :: ls2) := rfl
      rw [hj, splitLines_append_newline, ih (by simp)]
      simp

theorem flatten_map_splitLines (L : List (List Char)) (h : ∀ l ∈ L, '\n' ∉ l) :
    (L.map splitLines).flatten = L := by
  induction L with
  | nil => simp
  | cons l ls ih =>
    simp only [List.map_cons, List.flatten_cons]
    rw [splitLines_no_newline l (h l (by simp)), ih (fun x hx => h x (by simp [hx]))]
    simp

/-- Any line of the form `- From: …` passes the From-line regex, whatever
follows the prefix. -/
theorem isFromLine_from (w : List Char) :
    isFromLine ((("- From: ").toList) ++ w) = true := by
  have hT : jsTrim ((("- From: ").toList) ++ w)
      = rdropWS ((("- From:").toList) ++ (' ' :: w)) := by
    unfold jsTrim
    rw [show (("- From: ").toList) ++ w = '-' :: ((" From: ").toList ++ w) from by
      rw [show ("- From: ").toList = '-' :: (" From: ").toList from by decide]
      simp]
    rw [List.dropWhile_cons_of_neg (by decide)]
    rw [show '-' :: ((" From: ").toList ++ w) = (("- From:").toList) ++ (' ' :: w) from by
      rw [show ("- From:").toList = '-' :: (" From:").toList from by decide,
        show (" From: ").toList = (" From:").toList ++ [' '] from by decide]
      simp]
  unfold isFromLine
  rw [hT, rdropWS_append]
  by_cases hm : rdropWS (' ' :: w) = []
  · rw [if_pos hm, show rdropWS (("- From:").toList) = ("- From:").toList from by decide]
    decide
  · rw [if_neg hm]
    rcases hw : rdropWS w with _ | ⟨r, rs⟩
    · exfalso
      apply hm
      rw [rdropWS_cons_of_nil _ _ hw, if_pos (by decide)]
    · rw [rdropWS_cons_of_cons ' ' w r rs hw]
      rw [show ("- From:").toList ++ (' ' :: r :: rs)
          = '-' :: ' ' :: 'F' :: 'r' :: 'o' :: 'm' :: ':' :: ' ' :: r :: rs from by
        rw [show ("- From:").toList = ['-', ' ', 'F', 'r', 'o', 'm', ':'] from by decide]
        simp]
      rfl

/-- A three-line window that starts with the lines of `- From: link` always
contains a From line. -/
theorem window_any_from (link : List Char) (rest : List (List Char)) :
    ((splitLines (fromLineFor link) ++ rest).take 3).any isFromLine = true := by
  rw [fromLineFor, splitLines_prepend_no_newline _ link (by decide)]
  rw [List.cons_append, List.take_succ_cons, List.any_cons]
  rw [isFromLine_from]
  simp


/-- When the header is present and a From line already sits in the three-line
window after it, the splice returns the document unchanged. -/
theorem ensure_eq_self (text link : List Char) (i : Nat)
    (hne : text ≠ [])
    (hh : findHeaderIdx (splitLines text) = some i)
    (hany : (((splitLines text).drop (i + 1)).take 3).any isFromLine = true) :
    ensureSourceContextFromLine text link = text := by
  have hjoin := joinLines_splitLines text
  simp only [ensureSourceContextFromLine, hh, hany, if_true, if_neg hne]
  exact hjoin

/-- The document produced by the no-header branch is a fixed point of the
splice: its header is followed directly by the fresh From line. -/
theorem ensure_appendForm_stable (A link : List Char)
    (hA : ∀ l ∈ splitLines A, isHeaderLine l = false) :
    ensureSourceContextFromLine
      (A ++ ('\n' :: '\n' :: sourceContextHeaderRaw) ++ '\n' :: fromLineFor link ++ ['\n'])
      link
      = A ++ ('\n' :: '\n' :: sourceContextHeaderRaw) ++ '\n' :: fromLineFor link ++ ['\n'] := by
  have hsp : splitLines
      (A ++ ('\n' :: '\n' :: sourceContextHeaderRaw) ++ '\n' :: fromLineFor link ++ ['\n'])
      = (splitLines A ++ [[]])
        ++ sourceContextHeaderRaw :: (splitLines (fromLineFor link) ++ [[]]) := by
    rw [show A ++ ('\n' :: '\n' :: sourceContextHeaderRaw) ++ '\n' :: fromLineFor link ++ ['\n']
        = A ++ '\n' :: ('\n' :: (sourceContextHeaderRaw ++ '\n' :: (fromLineFor link ++ '\n' :: [])))
        from by simp]
    rw [splitLines_append_newline, splitLines_cons_newline, splitLines_append_newline,
      splitLines_append_newline,
      splitLines_no_newline sourceContextHeaderRaw (by decide)]
    simp [splitLines]
  have hne2 : A ++ ('\n' :: '\n' :: sourceContextHeaderRaw) ++ '\n' :: fromLineFor link ++ ['\n'] ≠ [] := by
    simp
  have hfind : findHeaderIdx (splitLines
      (A ++ ('\n' :: '\n' :: sourceContextHeaderRaw) ++ '\n' :: fromLineFor link ++ ['\n']))
      = some (splitLines A ++ [[]]).length := by
    rw [hsp]
    rw [findHeaderIdx_append_none _ _ (by
      intro l hl
      rcases List.mem_append.mp hl with hl | hl
      · exact hA l hl
      · have hle : l = [] := by simpa using hl
        rw [hle]
        exact isHeaderLine_nil)]
    rw [show findHeaderIdx (sourceContextHeaderRaw :: (splitLines (fromLineFor link) ++ [[]]))
        = some 0 from by
      simp [findHeaderIdx, show isHeaderLine sourceContextHeaderRaw = true from by decide]]
    simp
  have hwin : (((splitLines
      (A ++ ('\n' :: '\n' :: sourceContextHeaderRaw) ++ '\n' :: fromLineFor link ++ ['\n'])).drop
        ((splitLines A ++ [[]]).length + 1)).take 3).any isFromLine = true := by
    rw [hsp]
    rw [show (splitLines A ++ [[]]) ++ sourceContextHeaderRaw :: (splitLines (fromLineFor link) ++ [[]])
        = ((splitLines A ++ [[]]) ++ [sourceContextHeaderRaw]) ++ (splitLines (fromLineFor link) ++ [[]])
        from by simp]
    rw [List.drop_left' (by simp)]
    exact window_any_from link [[]]
  exact ensure_eq_self _ link ((splitLines A ++ [[]]).length) hne2 hfind hwin

/-- The document produced by the insert branch is a fixed point of the
splice: the fresh From line sits directly after the header. -/
theorem ensure_insert_stable (t link : List Char) (i : Nat)
    (hh : findHeaderIdx (splitLines t) = some i) :
    ensureSourceContextFromLine
      (joinLines ((splitLines t).take (i + 1) ++ fromLineFor link :: (splitLines t).drop (i + 1)))
      link
      = joinLines ((splitLines t).take (i + 1) ++ fromLineFor link :: (splitLines t).drop (i + 1)) := by
  have hi : i < (splitLines t).length := findHeaderIdx_lt_length _ i hh
  have hlen : ((splitLines t).take (i + 1)).length = i + 1 := by
    rw [List.length_take]
    omega
  have hne2 : joinLines ((splitLines t).take (i + 1)
      ++ fromLineFor link :: (splitLines t).drop (i + 1)) ≠ [] := by
    rcases hL : splitLines t with _ | ⟨x, xs⟩
    · exact absurd hL (splitLines_ne_nil t)
    · rw [List.take_succ_cons, List.cons_append, List.drop_succ_cons]
      rcases hmid : xs.take i ++ fromLineFor link :: xs.drop i with _ | ⟨y, ys⟩
      · simp at hmid
      · simp [joinLines]
  have hsp : splitLines (joinLines ((splitLines t).take (i + 1)
      ++ fromLineFor link :: (splitLines t).drop (i + 1)))
      = (splitLines t).take (i + 1)
        ++ (splitLines (fromLineFor link) ++ (splitLines t).drop (i + 1)) := by
    rw [splitLines_joinLines _ (by simp)]
    rw [List.map_append, List.map_cons, List.flatten_append, List.flatten_cons]
    rw [flatten_map_splitLines ((splitLines t).take (i + 1))
      (fun l hl => mem_splitLines_no_newline t l (List.mem_of_mem_take hl))]
    rw [flatten_map_splitLines ((splitLines t).drop (i + 1))
      (fun l hl => mem_splitLines_no_newline t l (List.mem_of_mem_drop hl))]
  have hfind : findHeaderIdx (splitLines (joinLines ((splitLines t).take (i + 1)
      ++ fromLineFor link :: (splitLines t).drop (i + 1)))) = some i := by
    rw [hsp]
    exact findHeaderIdx_take_append (splitLines t) i _ hh
  have hwin : (((splitLines (joinLines ((splitLines t).take (i + 1)
      ++ fromLineFor link :: (splitLines t).drop (i + 1)))).drop (i + 1)).take 3).any
        isFromLine = true := by
    rw [hsp, List.drop_left' hlen]
    exact window_any_from link _
  exact ensure_eq_self _ link i hne2 hfind hwin

/-- C6: the section splice is idempotent — applying
`_ensureSourceContextFromLine` twice with the same document and origin link
yields the same document as applying it once. -/
theorem c6_splice_idempotent (text originLink : List Char) :
    ensureSourceContextFromLine (ensureSourceContextFromLine text originLink) originLink
      = ensureSourceContextFromLine text originLink := by
  by_cases hne : text = []
  · subst hne
    rfl
  · rcases hh : findHeaderIdx (splitLines text) with _ | i
    · have h1 : ensureSourceContextFromLine text originLink
          = jsTrim text ++ ('\n' :: '\n' :: sourceContextHeaderRaw)
            ++ '\n' :: fromLineFor originLink ++ ['\n'] := by
        simp only [ensureSourceContextFromLine, if_neg hne, hh]
      rw [h1]
      exact ensure_appendForm_stable (jsTrim text) originLink
        (noHeader_jsTrim text ((findHeaderIdx_eq_none (splitLines text)).mp hh))
    · by_cases hany : (((splitLines text).drop (i + 1)).take 3).any isFromLine = true
      · rw [ensure_eq_self text originLink i hne hh hany,
          ensure_eq_self text originLink i hne hh hany]
      · have hany2 : (((splitLines text).drop (i + 1)).take 3).any isFromLine = false := by
          simpa using hany
        have h1 : ensureSourceContextFromLine text originLink
            = joinLines ((splitLines text).take (i + 1)
              ++ fromLineFor originLink :: (splitLines text).drop (i + 1)) := by
          simp only [ensureSourceContextFromLine, if_neg hne, hh, hany2, Bool.false_eq_true,
            if_false]
        rw [h1]
        exact ensure_insert_stable text originLink i hh

/-- Modelled from the spec: a top-level section header line, one that starts
a new `## ` section. -/
def isTopHeaderLine (l : List Char) : Bool := prefMatch false (("## ").toList) l

/-- Modelled from the spec: the first line equal, case-insensitively and
exactly, to the Source Context header. -/
def specFindHeaderIdx : List (List Char) → Option Nat
  | [] => none
  | l :: ls =>
    if l.map lowerChar == sourceContextHeaderLC then some 0
    else (specFindHeaderIdx ls).map (· + 1)

/-- Modelled from the spec: the index of the first top-level header line. -/
def findTopHeaderIdx : List (List Char) → Option Nat
  | [] => none
  | l :: ls => if isTopHeaderLine l then some 0 else (findTopHeaderIdx ls).map (· + 1)

/-- Modelled from the spec: the section-splice contract — when the header is
absent, append a blank line, the header and the From-line body at the end of
the document; when it is present, replace every line from the header up to but
not including the next top-level header (or the end of the document) with the
new header and body, leaving everything else undisturbed. -/
def specSectionSplice (text originLink : List Char) : List Char :=
  let lines := splitLines text
  match specFindHeaderIdx lines with
  | none => joinLines (lines ++ [[], sourceContextHeaderRaw, fromLineFor originLink])
  | some i =>
    let after := lines.drop (i + 1)
    let stop :=
      match findTopHeaderIdx after with
      | none => after.length
      | some j => j
    joinLines (lines.take i
      ++ sourceContextHeaderRaw :: fromLineFor originLink :: after.drop stop)

/-- C7 counterexample: on a document whose Source Context section already has
a body line `OLD`, the code diverges from the spec contract — it keeps `OLD`
(inserting a From line above it) instead of replacing the section body. -/
theorem c7_counterexample :
    ensureSourceContextFromLine
        (("## Source Context (From the Note)\nOLD").toList) (("[[O]]").toList)
      ≠ specSectionSplice
        (("## Source Context (From the Note)\nOLD").toList) (("[[O]]").toList)
    ∧ ("OLD").toList ∈ splitLines (ensureSourceContextFromLine
        (("## Source Context (From the Note)\nOLD").toList) (("[[O]]").toList)) :=
  ⟨by decide, by decide⟩

/-- C7 (amended): what the splice actually does — empty input is returned
unchanged; with no header line the trimmed text gets the header and From line
appended; with a header and a From line within the next three lines the
document is returned unchanged; otherwise a single From line is inserted
directly after the header and every existing line is kept. -/
theorem c7_amended (text originLink : List Char) :
    (text = [] → ensureSourceContextFromLine text originLink = text)
    ∧ (findHeaderIdx (splitLines text) = none → text ≠ [] →
        ensureSourceContextFromLine text originLink
          = jsTrim text ++ ('\n' :: '\n' :: sourceContextHeaderRaw)
            ++ '\n' :: fromLineFor originLink ++ ['\n'])
    ∧ (∀ i, findHeaderIdx (splitLines text) = some i → text ≠ [] →
        (((splitLines text).drop (i + 1)).take 3).any isFromLine = true →
        ensureSourceContextFromLine text originLink = text)
    ∧ (∀ i, findHeaderIdx (splitLines text) = some i → text ≠ [] →
        (((splitLines text).drop (i + 1)).take 3).any isFromLine = false →
        ensureSourceContextFromLine text originLink
          = joinLines ((splitLines text).take (i + 1)
            ++ fromLineFor originLink :: (splitLines text).drop (i + 1))) := by
  refine ⟨?_, ?_, ?_, ?_⟩
  · intro h
    subst h
    rfl
  · intro hh hne
    simp only [ensureSourceContextFromLine, if_neg hne, hh]
  · intro i hh hne hany
    exact ensure_eq_self text originLink i hne hh hany
  · intro i hh hne hany
    simp only [ensureSourceContextFromLine, if_neg hne, hh, hany, Bool.false_eq_true,
      if_false]

/-- C7 witness: a document whose header is already followed by a From line is
returned unchanged. -/
theorem c7_witness :
    ensureSourceContextFromLine
        (("x\n## Source Context (From the Note)\n- From: [[O]]\ny").toList)
        (("[[O]]").toList)
      = ("x\n## Source Context (From the Note)\n- From: [[O]]\ny").toList :=
  (c7_amended (("x\n## Source Context (From the Note)\n- From: [[O]]\ny").toList)
      (("[[O]]").toList)).2.2.1 1 (by decide) (by decide) (by decide)

end WikiDef

